import Mathlib

/-!
Verification of the pyPhyNR 5G NR downlink waveform generator.

This file shallow-embeds the core computational parts of the repository:
  * the Gold-sequence generator and DMRS seed formulas
    (src/pyPhyNR/core/channels/dmrs.py),
  * the constellation mapping formulas (src/pyPhyNR/core/modulation.py),
  * the resource grid and channel allocation (src/pyPhyNR/core/resources.py,
    src/pyPhyNR/core/channels/base.py),
  * OFDM parameter calculation (src/pyPhyNR/waveforms/ofdm.py),
  * waveform assembly bookkeeping (src/pyPhyNR/core/waveform.py).

Python integers are embedded as Nat/Int, Python floats as exact rationals,
complex symbol values as Mathlib complex numbers (or pairs of rationals
inside the resource grid, where only equality matters).  Python `round`
is half-to-even (`pyRound` below).  Functions that can raise are embedded
with `Except`.
-/

namespace PyPhyNR

/-- Python's built-in `round` on a rational: round half to even, returning an
integer (as `int(round(x))` does for the values used in the source). -/
def pyRound (q : ℚ) : ℤ :=
  let f := ⌊q⌋
  if q - f < 1/2 then f
  else if 1/2 < q - f then f + 1
  else if f % 2 = 0 then f else f + 1

theorem pyRound_intCast (n : ℤ) : pyRound (n : ℚ) = n := by
  simp [pyRound]

theorem pyRound_nonneg {q : ℚ} (h : 0 ≤ q) : 0 ≤ pyRound q := by
  have hf : (0:ℤ) ≤ ⌊q⌋ := Int.le_floor.2 (by exact_mod_cast h)
  unfold pyRound
  dsimp only
  split_ifs <;> omega

theorem floor_le_pyRound (q : ℚ) : ⌊q⌋ ≤ pyRound q := by
  unfold pyRound
  dsimp only
  split_ifs <;> omega

/-- If `q` is within distance `< 1/2` of the integer `n`, the half-to-even
round returns `n`. -/
theorem pyRound_eq_of_abs_lt {q : ℚ} {n : ℤ} (h : |q - n| < 1/2) :
    pyRound q = n := by
  rw [abs_sub_lt_iff] at h
  obtain ⟨h1, h2⟩ := h
  have hle : (⌊q⌋ : ℚ) ≤ q := Int.floor_le q
  have hfl : ⌊q⌋ = n ∨ ⌊q⌋ = n - 1 := by
    have h3 : (n - 1 : ℤ) ≤ ⌊q⌋ := by
      apply Int.le_floor.2
      have hcast : ((n - 1 : ℤ) : ℚ) = (n : ℚ) - 1 := by push_cast; ring
      rw [hcast]
      linarith
    have h4 : ⌊q⌋ < n + 1 := by
      apply Int.floor_lt.2; push_cast; linarith
    omega
  unfold pyRound
  dsimp only
  rcases hfl with hfl | hfl
  · have hA : q - ⌊q⌋ < 1/2 := by rw [hfl]; push_cast; linarith
    rw [if_pos hA, hfl]
  · have hA : ¬(q - ⌊q⌋ < 1/2) := by rw [hfl]; push_cast; linarith
    have hB : (1:ℚ)/2 < q - ⌊q⌋ := by rw [hfl]; push_cast; linarith
    rw [if_neg hA, if_pos hB, hfl]
    omega

/-! ## Gold sequence generator (dmrs.py, `generate_gold_sequence`) -/

/-- One iteration of the source's x1 extension loop: the appended value is
`(x1[n-28] + x1[n-31]) % 2` where `n` is the current array length. -/
def lfsrStep1 (x : List ℕ) : ℕ :=
  (x.getD (x.length - 28) 0 + x.getD (x.length - 31) 0) % 2

/-- One iteration of the source's x2 extension loop: the appended value is
`(x2[n-28] + x2[n-29] + x2[n-30] + x2[n-31]) % 2`. -/
def lfsrStep2 (x : List ℕ) : ℕ :=
  (x.getD (x.length - 28) 0 + x.getD (x.length - 29) 0 +
   x.getD (x.length - 30) 0 + x.getD (x.length - 31) 0) % 2

/-- The source's `x = np.append(x, new)` loop, run `k` times. -/
def extendLfsr (step : List ℕ → ℕ) : List ℕ → ℕ → List ℕ
  | x, 0 => x
  | x, k + 1 => extendLfsr step (x ++ [step x]) k

/-- Initial x1 register: `x1[0] = 1`, the other 30 entries `0`. -/
def x1Init : List ℕ := 1 :: List.replicate 30 0

/-- Initial x2 register: bit `i` of `c_init` at position `i` (the source's
`(c_init >> i) & 1`). -/
def x2Init (cInit : ℕ) : List ℕ :=
  (List.range 31).map (fun i => (cInit / 2 ^ i) % 2)

/-- Embedding of `generate_gold_sequence(c_init, length)`: extend both
registers to length `Nc + length` with `Nc = 1600`, then output the
element-wise sum mod 2 of the slices `[Nc : Nc+length]`. -/
def generate_gold_sequence (cInit L : ℕ) : List ℕ :=
  let total := 1600 + L
  let x1 := extendLfsr lfsrStep1 x1Init (total - 31)
  let x2 := extendLfsr lfsrStep2 (x2Init cInit) (total - 31)
  List.zipWith (fun a b => (a + b) % 2)
    ((x1.drop 1600).take L) ((x2.drop 1600).take L)

/-- The x1 sequence as the spec states it: `x1 = [1,0,...,0]` initially and
`x1(n+31) = (x1(n+3) + x1(n)) mod 2`. -/
def x1Spec (n : ℕ) : ℕ :=
  if h : n < 31 then (if n = 0 then 1 else 0)
  else (x1Spec (n - 28) + x1Spec (n - 31)) % 2
termination_by n
decreasing_by
  · omega
  · omega

/-- The x2 sequence as the spec states it: initialized from the 31 bits of
`c_init` and `x2(n+31) = (x2(n+3)+x2(n+2)+x2(n+1)+x2(n)) mod 2`. -/
def x2Spec (cInit : ℕ) (n : ℕ) : ℕ :=
  if h : n < 31 then (cInit / 2 ^ n) % 2
  else (x2Spec cInit (n - 28) + x2Spec cInit (n - 29) +
        x2Spec cInit (n - 30) + x2Spec cInit (n - 31)) % 2
termination_by n
decreasing_by
  · omega
  · omega
  · omega
  · omega

theorem extendLfsr_length (step : List ℕ → ℕ) (x : List ℕ) (k : ℕ) :
    (extendLfsr step x k).length = x.length + k := by
  induction k generalizing x with
  | zero => simp [extendLfsr]
  | succ k ih =>
    rw [extendLfsr, ih]
    simp
    omega

/-- Generic invariant for the extension loops: if `step` produces the `spec`
value at the current length whenever the whole prefix agrees with `spec`,
the extended list agrees with `spec` everywhere. -/
theorem extendLfsr_spec (step : List ℕ → ℕ) (spec : ℕ → ℕ)
    (hstep : ∀ x : List ℕ, 31 ≤ x.length →
      (∀ i, i < x.length → x.getD i 0 = spec i) → step x = spec x.length) :
    ∀ (k : ℕ) (x : List ℕ), 31 ≤ x.length →
      (∀ i, i < x.length → x.getD i 0 = spec i) →
      ∀ i, i < (extendLfsr step x k).length → (extendLfsr step x k).getD i 0 = spec i := by
  intro k
  induction k with
  | zero => intro x _ hx i hi; simpa [extendLfsr] using hx i (by simpa [extendLfsr] using hi)
  | succ k ih =>
    intro x hlen hx i hi
    rw [extendLfsr] at hi ⊢
    apply ih (x ++ [step x]) (by simp; omega)
    · intro j hj
      simp only [List.length_append, List.length_cons, List.length_nil] at hj
      rcases Nat.lt_or_ge j x.length with hjx | hjx
      · rw [List.getD_eq_getElem?_getD, List.getElem?_append_left hjx,
          ← List.getD_eq_getElem?_getD]
        exact hx j hjx
      · have hj' : j = x.length := by omega
        subst hj'
        rw [List.getD_eq_getElem?_getD, List.getElem?_concat_length]
        simpa using hstep x hlen hx
    · exact hi

theorem x1Init_spec : ∀ i, i < x1Init.length → x1Init.getD i 0 = x1Spec i := by
  intro i hi
  simp only [x1Init, List.length_cons, List.length_replicate] at hi
  rw [x1Spec, dif_pos (by omega)]
  rcases i with _ | j
  · simp [x1Init]
  · simp only [x1Init, List.getD_cons_succ]
    rw [List.getD_eq_getElem?_getD, List.getElem?_replicate, if_pos (by omega)]
    simp

theorem x2Init_spec (cInit : ℕ) :
    ∀ i, i < (x2Init cInit).length → (x2Init cInit).getD i 0 = x2Spec cInit i := by
  intro i hi
  simp only [x2Init, List.length_map, List.length_range] at hi
  rw [x2Spec, dif_pos (by omega)]
  simp [x2Init, List.getD_eq_getElem?_getD, List.getElem?_map, List.getElem?_range hi]

theorem x1_build_spec (total : ℕ) :
    ∀ i, i < (extendLfsr lfsrStep1 x1Init (total - 31)).length →
      (extendLfsr lfsrStep1 x1Init (total - 31)).getD i 0 = x1Spec i := by
  apply extendLfsr_spec
  · intro x hlen hx
    have hu : x1Spec x.length = (x1Spec (x.length - 28) + x1Spec (x.length - 31)) % 2 := by
      rw [x1Spec, dif_neg (by omega)]
    rw [lfsrStep1, hx _ (by omega), hx _ (by omega), hu]
  · simp [x1Init]
  · exact x1Init_spec

theorem x2_build_spec (cInit total : ℕ) :
    ∀ i, i < (extendLfsr lfsrStep2 (x2Init cInit) (total - 31)).length →
      (extendLfsr lfsrStep2 (x2Init cInit) (total - 31)).getD i 0 = x2Spec cInit i := by
  apply extendLfsr_spec
  · intro x hlen hx
    have hu : x2Spec cInit x.length =
        (x2Spec cInit (x.length - 28) + x2Spec cInit (x.length - 29) +
         x2Spec cInit (x.length - 30) + x2Spec cInit (x.length - 31)) % 2 := by
      rw [x2Spec, dif_neg (by omega)]
    rw [lfsrStep2, hx _ (by omega), hx _ (by omega), hx _ (by omega), hx _ (by omega), hu]
  · simp [x2Init]
  · exact x2Init_spec cInit

/-- Helper form of the Gold-sequence correctness, without the seed-range
hypothesis, shared by the reference-signal proofs. -/
theorem gold_sequence_eq_map (cInit L : ℕ) :
    generate_gold_sequence cInit L =
      (List.range L).map (fun n => (x1Spec (n + 1600) + x2Spec cInit (n + 1600)) % 2) := by
  unfold generate_gold_sequence
  have hx1len : (extendLfsr lfsrStep1 x1Init (1600 + L - 31)).length = 1600 + L := by
    rw [extendLfsr_length]
    simp [x1Init]
    omega
  have hx2len : (extendLfsr lfsrStep2 (x2Init cInit) (1600 + L - 31)).length = 1600 + L := by
    rw [extendLfsr_length]
    simp [x2Init]
    omega
  apply List.ext_getElem
  · simp [hx1len, hx2len]
  · intro n h1 h2
    have hn : n < L := by
      simpa [hx1len, hx2len] using h1
    simp only [List.getElem_zipWith, List.getElem_map, List.getElem_range]
    rw [List.getElem_take, List.getElem_drop, List.getElem_take, List.getElem_drop]
    have e1 := x1_build_spec (1600 + L) (1600 + n) (by omega)
    have e2 := x2_build_spec cInit (1600 + L) (1600 + n) (by omega)
    rw [List.getD_eq_getElem?_getD, List.getElem?_eq_getElem (by omega)] at e1 e2
    simp only [Option.getD_some] at e1 e2
    rw [e1, e2]
    ring_nf

/-- C6: the generated Gold sequence is exactly
`c(n) = (x1(n+1600) + x2(n+1600)) mod 2` for the spec's two LFSR
recurrences, for every 31-bit seed and length. -/
theorem gold_sequence_matches_spec (cInit L : ℕ) (_hseed : cInit < 2 ^ 31) :
    generate_gold_sequence cInit L =
      (List.range L).map (fun n => (x1Spec (n + 1600) + x2Spec cInit (n + 1600)) % 2) :=
  gold_sequence_eq_map cInit L

/-- Closed witness for `gold_sequence_matches_spec`. -/
theorem gold_sequence_matches_spec_witness :
    0 < 2 ^ 31 ∧ generate_gold_sequence 0 0 =
      (List.range 0).map (fun n => (x1Spec (n + 1600) + x2Spec 0 (n + 1600)) % 2) :=
  ⟨by norm_num, gold_sequence_matches_spec 0 0 (by norm_num)⟩

theorem gold_sequence_length (cInit L : ℕ) :
    (generate_gold_sequence cInit L).length = L := by
  rw [gold_sequence_eq_map]
  simp

/-! ## DMRS seed formulas and QPSK mapping (dmrs.py) -/

/-- Embedding of the PBCH DMRS `i_ssb` computation from
`PBCH_DMRS.generate_symbols`. -/
def iSsbOf (ssbIndex halfFrame : ℕ) : ℕ :=
  if ssbIndex ≤ 3 then ssbIndex + 4 * halfFrame else ssbIndex + 8 * halfFrame

/-- Embedding of the PBCH DMRS `c_init` formula from
`PBCH_DMRS.generate_symbols`. -/
def cInitPbchDmrs (cellId ssbIndex halfFrame : ℕ) : ℕ :=
  (2 ^ 11 * (iSsbOf ssbIndex halfFrame + 1) * (cellId / 4 + 1) +
   2 ^ 6 * (iSsbOf ssbIndex halfFrame + 1) + cellId % 4) % 2 ^ 31

/-- C2 counterexample: at `cell_id = 0, ssb_index = 0, half_frame = 0` the
implemented closed-form `c_init` is not `0`. -/
theorem pbch_cinit_zero_is_false : cInitPbchDmrs 0 0 0 ≠ 0 := by
  norm_num [cInitPbchDmrs, iSsbOf]

/-- C2 amended: the `c_init` at `(0,0,0)` is `2^11 + 2^6 = 2112`. -/
theorem pbch_cinit_at_zero : cInitPbchDmrs 0 0 0 = 2112 := by
  norm_num [cInitPbchDmrs, iSsbOf]

/-- Embedding of the PDSCH DMRS `c_init` formula from
`PDSCH_DMRS.generate_symbols`. -/
def cInitPdschDmrs (cellId slotIdx symbolIdx : ℕ) : ℕ :=
  (2 ^ 17 * (14 * slotIdx + symbolIdx + 1) * (2 * cellId + 1) + 2 * cellId) % 2 ^ 31

/-- Elements of a list at even indices (the source's `seq[::2]`). -/
def evens {α : Type} : List α → List α
  | [] => []
  | [a] => [a]
  | a :: _ :: t => a :: evens t

/-- Elements of a list at odd indices (the source's `seq[1::2]`). -/
def odds {α : Type} : List α → List α
  | [] => []
  | [_] => []
  | _ :: b :: t => b :: odds t

/-- The QPSK value computed in `map_to_qpsk`:
`(1/sqrt 2) * ((1 - 2*m1) + 1j*(1 - 2*m2))`.  The field, the square root
and the imaginary unit are parameters so the definition stays executable;
all theorems instantiate them with `ℂ`, `Real.sqrt 2` and `Complex.I`. -/
def qpskVal {K : Type} [Field K] (sqrt2 j : K) (a b : ℕ) : K :=
  (1 / sqrt2) * ((1 - 2 * (a : K)) + j * (1 - 2 * (b : K)))

/-- Embedding of `map_to_qpsk`: raises on odd-length input, otherwise maps
even-index/odd-index bit pairs to QPSK symbols. -/
def map_to_qpsk {K : Type} [Field K] (sqrt2 j : K) (seq : List ℕ) :
    Except String (List K) :=
  if seq.length % 2 ≠ 0 then
    .error "Binary sequence length must be even for QPSK mapping"
  else
    .ok (List.zipWith (qpskVal sqrt2 j) (evens seq) (odds seq))

/-- Embedding of `PDSCH_DMRS.generate_symbols` (flat symbol list; the
source reshapes the same data row-major to `(n_sc, num_symbols)`). -/
def pdschDmrsSymbols {K : Type} [Field K] (sqrt2 j : K) (positions : List ℕ)
    (numRb numSymbols cellId slotIdx symbolIdx : ℕ) : Except String (List K) :=
  let nSc := numRb * positions.length
  let cInit := cInitPdschDmrs cellId slotIdx symbolIdx
  let totalBits := nSc * numSymbols * 2
  map_to_qpsk sqrt2 j (generate_gold_sequence cInit totalBits)

/-- The Gold-sequence bit defined directly by the spec recurrences. -/
def goldSpecBit (cInit n : ℕ) : ℕ :=
  (x1Spec (n + 1600) + x2Spec cInit (n + 1600)) % 2

/-- The QPSK symbol as the spec writes it:
`(1 - 2*b0)/sqrt 2 + j*(1 - 2*b1)/sqrt 2`. -/
def qpskClaimVal {K : Type} [Field K] (sqrt2 j : K) (b0 b1 : ℕ) : K :=
  (1 - 2 * (b0 : K)) / sqrt2 + j * ((1 - 2 * (b1 : K)) / sqrt2)

theorem evens_length {α : Type} (l : List α) : (evens l).length = (l.length + 1) / 2 := by
  induction l using evens.induct with
  | case1 => simp [evens]
  | case2 a => simp [evens]
  | case3 a b t ih =>
    simp only [evens, List.length_cons, ih]
    omega

theorem odds_length {α : Type} (l : List α) : (odds l).length = l.length / 2 := by
  induction l using odds.induct with
  | case1 => simp [odds]
  | case2 a => simp [odds]
  | case3 a b t ih =>
    simp only [odds, List.length_cons, ih]
    omega

theorem evens_getD {α : Type} (d : α) :
    ∀ (k : ℕ) (l : List α), 2 * k < l.length → (evens l).getD k d = l.getD (2 * k) d := by
  intro k
  induction k with
  | zero =>
    intro l hl
    match l with
    | [] => simp at hl
    | [a] => simp [evens]
    | a :: b :: t => simp [evens]
  | succ k ih =>
    intro l hl
    match l with
    | [] => simp at hl
    | [a] => simp only [List.length_cons, List.length_nil] at hl; omega
    | a :: b :: t =>
      have h2 : 2 * (k + 1) = 2 * k + 1 + 1 := by omega
      simp only [evens, List.getD_cons_succ, h2]
      exact ih t (by simp at hl; omega)

theorem odds_getD {α : Type} (d : α) :
    ∀ (k : ℕ) (l : List α), 2 * k + 1 < l.length → (odds l).getD k d = l.getD (2 * k + 1) d := by
  intro k
  induction k with
  | zero =>
    intro l hl
    match l with
    | [] => simp at hl
    | [a] => simp at hl
    | a :: b :: t => simp [odds]
  | succ k ih =>
    intro l hl
    match l with
    | [] => simp at hl
    | [a] => simp at hl
    | a :: b :: t =>
      have h2 : 2 * (k + 1) = 2 * k + 1 + 1 := by omega
      simp only [odds, h2, List.getD_cons_succ]
      exact ih t (by simp at hl; omega)

theorem getD_zipWith {α β γ : Type} (f : α → β → γ) (l1 : List α) (l2 : List β)
    (k : ℕ) (h1 : k < l1.length) (h2 : k < l2.length) (da : α) (db : β) (dc : γ) :
    (List.zipWith f l1 l2).getD k dc = f (l1.getD k da) (l2.getD k db) := by
  have hk : k < (List.zipWith f l1 l2).length := by
    simp [List.length_zipWith]
    omega
  rw [List.getD_eq_getElem _ _ hk, List.getD_eq_getElem _ _ h1, List.getD_eq_getElem _ _ h2]
  exact List.getElem_zipWith

/-- C7: `PDSCH_DMRS.generate_symbols` computes the spec's `c_init`, draws
`2 * (num_rb * |positions|) * num_symbols` Gold bits from the spec
recurrences, and maps pair `(c(2k), c(2k+1))` — the even-index bit driving
the real part — to `(1-2*b0)/sqrt 2 + j*(1-2*b1)/sqrt 2`; entry `(r, c)` of
the `(n_sc, num_symbols)`-reshaped output is flat element
`r * num_symbols + c`. -/
theorem pdsch_dmrs_matches_spec (positions : List ℕ)
    (numRb numSymbols cellId slotIdx symbolIdx : ℕ)
    (_hrb : 1 ≤ numRb) (_hsym : 1 ≤ numSymbols) :
    ∃ out, pdschDmrsSymbols (Real.sqrt 2 : ℂ) Complex.I positions
        numRb numSymbols cellId slotIdx symbolIdx = .ok out ∧
      out.length = (numRb * positions.length) * numSymbols ∧
      ∀ r c, r < numRb * positions.length → c < numSymbols →
        out.getD (r * numSymbols + c) 0 =
          qpskClaimVal (Real.sqrt 2 : ℂ) Complex.I
            (goldSpecBit ((2 ^ 17 * (14 * slotIdx + symbolIdx + 1) * (2 * cellId + 1) +
                2 * cellId) % 2 ^ 31) (2 * (r * numSymbols + c)))
            (goldSpecBit ((2 ^ 17 * (14 * slotIdx + symbolIdx + 1) * (2 * cellId + 1) +
                2 * cellId) % 2 ^ 31) (2 * (r * numSymbols + c) + 1)) := by
  have hciq : cInitPdschDmrs cellId slotIdx symbolIdx =
      (2 ^ 17 * (14 * slotIdx + symbolIdx + 1) * (2 * cellId + 1) + 2 * cellId) % 2 ^ 31 := rfl
  set cInit := cInitPdschDmrs cellId slotIdx symbolIdx with hci
  set L := numRb * positions.length * numSymbols * 2 with hL
  set seq := generate_gold_sequence cInit L with hseq
  have hlen : seq.length = L := gold_sequence_length cInit L
  have heven : ¬ seq.length % 2 ≠ 0 := by
    rw [hlen]
    omega
  refine ⟨List.zipWith (qpskVal (Real.sqrt 2 : ℂ) Complex.I) (evens seq) (odds seq),
    ?_, ?_, ?_⟩
  · unfold pdschDmrsSymbols map_to_qpsk
    rw [if_neg heven]
  · rw [List.length_zipWith, evens_length, odds_length, hlen]
    omega
  · intro r c hr hc
    have hk : r * numSymbols + c < numRb * positions.length * numSymbols :=
      calc r * numSymbols + c < (r + 1) * numSymbols := by nlinarith
        _ ≤ numRb * positions.length * numSymbols := by nlinarith
    have hb0 : 2 * (r * numSymbols + c) < seq.length := by rw [hlen]; omega
    have hb1 : 2 * (r * numSymbols + c) + 1 < seq.length := by rw [hlen]; omega
    rw [getD_zipWith (qpskVal (Real.sqrt 2 : ℂ) Complex.I) _ _ _
        (by rw [evens_length, hlen]; omega)
        (by rw [odds_length, hlen]; omega) 0 0 0]
    rw [evens_getD _ _ _ hb0, odds_getD _ _ _ hb1]
    have hgold : ∀ n, n < L → seq.getD n 0 = goldSpecBit cInit n := by
      intro n hn
      rw [hseq, gold_sequence_eq_map]
      rw [List.getD_eq_getElem _ _ (by simpa using hn)]
      simp [goldSpecBit]
    rw [hgold _ (by omega), hgold _ (by omega), ← hciq]
    unfold qpskVal qpskClaimVal
    ring

/-- Closed witness for `pdsch_dmrs_matches_spec`. -/
theorem pdsch_dmrs_matches_spec_witness :
    (1 ≤ 1 ∧ 1 ≤ 1) ∧
      ∃ out, pdschDmrsSymbols (Real.sqrt 2 : ℂ) Complex.I [0, 2, 4, 6, 8, 10]
          1 1 0 0 0 = .ok out ∧
        out.length = (1 * [0, 2, 4, 6, 8, 10].length) * 1 ∧
        ∀ r c, r < 1 * [0, 2, 4, 6, 8, 10].length → c < 1 →
          out.getD (r * 1 + c) 0 =
            qpskClaimVal (Real.sqrt 2 : ℂ) Complex.I
              (goldSpecBit ((2 ^ 17 * (14 * 0 + 0 + 1) * (2 * 0 + 1) + 2 * 0) % 2 ^ 31)
                (2 * (r * 1 + c)))
              (goldSpecBit ((2 ^ 17 * (14 * 0 + 0 + 1) * (2 * 0 + 1) + 2 * 0) % 2 ^ 31)
                (2 * (r * 1 + c) + 1)) :=
  ⟨⟨le_refl 1, le_refl 1⟩,
    pdsch_dmrs_matches_spec [0, 2, 4, 6, 8, 10] 1 1 0 0 0 (le_refl 1) (le_refl 1)⟩

/-! ## 256-QAM mapping (modulation.py) -/

/-- Embedding of `map_qam256`: the reference 3GPP formula applied to the
8-bit group `b1..b8` (list positions `0..7`).  The field, the square root
of 170 and the imaginary unit are parameters (instantiated with `ℂ`,
`Real.sqrt 170`, `Complex.I` in the theorems) to keep the definition
executable. -/
def map_qam256 {K : Type} [Field K] (sqrt170 j : K) (bits : List ℕ) : K :=
  let b1 : K := (bits.getD 0 0 : ℕ)
  let b2 : K := (bits.getD 1 0 : ℕ)
  let b3 : K := (bits.getD 2 0 : ℕ)
  let b4 : K := (bits.getD 3 0 : ℕ)
  let b5 : K := (bits.getD 4 0 : ℕ)
  let b6 : K := (bits.getD 5 0 : ℕ)
  let b7 : K := (bits.getD 6 0 : ℕ)
  let b8 : K := (bits.getD 7 0 : ℕ)
  ((1 - 2 * b1) * (8 - (1 - 2 * b3) * (4 - (1 - 2 * b5) * (2 - (1 - 2 * b7)))) +
    j * (1 - 2 * b2) * (8 - (1 - 2 * b4) * (4 - (1 - 2 * b6) * (2 - (1 - 2 * b8))))) /
    sqrt170

/-- The 8 bits of `v` in `bitget` order: `b1` the least significant through
`b8` the most significant. -/
def bitgetBits (v : ℕ) : List ℕ :=
  (List.range 8).map (fun i => (v / 2 ^ i) % 2)

/-- Embedding of the inline 256-QAM branch of `generate_random_symbols`,
with the bit extraction exactly as the source writes it: `b1..b4` use
shifts `0..3` but `b5..b8` use shifts `5..8` (the comments claim MATLAB
`bitget(x,5)..bitget(x,8)`, which would be shifts `4..7`). -/
def inlineQam256 {K : Type} [Field K] (sqrt170 j : K) (v : ℕ) : K :=
  let b1 : K := ((v / 2 ^ 0) % 2 : ℕ)
  let b2 : K := ((v / 2 ^ 1) % 2 : ℕ)
  let b3 : K := ((v / 2 ^ 2) % 2 : ℕ)
  let b4 : K := ((v / 2 ^ 3) % 2 : ℕ)
  let b5 : K := ((v / 2 ^ 5) % 2 : ℕ)
  let b6 : K := ((v / 2 ^ 6) % 2 : ℕ)
  let b7 : K := ((v / 2 ^ 7) % 2 : ℕ)
  let b8 : K := ((v / 2 ^ 8) % 2 : ℕ)
  (1 / sqrt170) *
    ((1 - 2 * b1) * (8 - (1 - 2 * b3) * (4 - (1 - 2 * b5) * (2 - (1 - 2 * b7)))) +
      j * (1 - 2 * b2) * (8 - (1 - 2 * b4) * (4 - (1 - 2 * b6) * (2 - (1 - 2 * b8)))))

/-- C3: at `v = 16` (bit 4 set) the inline 256-QAM extraction ignores the
set bit and yields `(5+5j)/sqrt 170`, while `map_qam256` on the `bitget`
bits of `16` yields `(3+5j)/sqrt 170`; the two mappings differ. -/
theorem qam256_inline_deviates_from_reference :
    inlineQam256 (Real.sqrt 170 : ℂ) Complex.I 16 =
      (5 + 5 * Complex.I) / (Real.sqrt 170 : ℂ) ∧
    map_qam256 (Real.sqrt 170 : ℂ) Complex.I (bitgetBits 16) =
      (3 + 5 * Complex.I) / (Real.sqrt 170 : ℂ) ∧
    inlineQam256 (Real.sqrt 170 : ℂ) Complex.I 16 ≠
      map_qam256 (Real.sqrt 170 : ℂ) Complex.I (bitgetBits 16) := by
  have hs : (Real.sqrt 170 : ℂ) ≠ 0 := by
    simp only [ne_eq, Complex.ofReal_eq_zero]
    positivity
  have h1 : inlineQam256 (Real.sqrt 170 : ℂ) Complex.I 16 =
      (5 + 5 * Complex.I) / (Real.sqrt 170 : ℂ) := by
    unfold inlineQam256
    norm_num
    rw [inv_mul_eq_div]
    congr 1
    ring
  have h2 : map_qam256 (Real.sqrt 170 : ℂ) Complex.I (bitgetBits 16) =
      (3 + 5 * Complex.I) / (Real.sqrt 170 : ℂ) := by
    unfold map_qam256 bitgetBits
    norm_num
    congr 1
    ring
  refine ⟨h1, h2, ?_⟩
  rw [h1, h2]
  intro h
  rw [div_eq_div_iff hs hs] at h
  have h' := mul_right_cancel₀ hs h
  have hre := congrArg Complex.re h'
  norm_num at hre

/-! ## Resource grid and channel allocation (resources.py, channels/base.py) -/

/-- Modelled from the spec: the `ChannelType` enumeration lives in
`core/channel_types.py`, which is absent from `src/`; the spec's data model
names the channel-type tags EMPTY, PDSCH, PDCCH, CORESET and the downlink
DMRS tag used for reference-signal resource elements. -/
inductive ChannelType where
  | EMPTY
  | PDSCH
  | PDCCH
  | CORESET
  | DL_DMRS
deriving DecidableEq, Repr

/-- Embedding of `PhysicalChannel` (channels/base.py): placement fields,
slot pattern, optional reference-signal positions (the `positions` list of
the embedded `ReferenceSignal`), and the local data array.  Grid claims
only compare data values for equality, so samples are embedded as pairs of
rationals (re, im). -/
structure PhysChannel where
  channel_type : ChannelType
  start_rb : ℕ
  num_rb : ℕ
  start_symbol : ℕ
  num_symbols : ℕ
  slot_pattern : List ℕ
  ref_positions : Option (List ℕ)
  data : List (List (ℚ × ℚ))
deriving DecidableEq, Repr

/-- Frequency indices from `calculate_indices`:
`range(start_rb*12, start_rb*12 + num_rb*12)`. -/
def freqIndices (ch : PhysChannel) : List ℕ :=
  List.range' (ch.start_rb * 12) (ch.num_rb * 12)

/-- Time indices for one slot from `calculate_indices`:
`range(start_symbol + slot*14, start_symbol + slot*14 + num_symbols)`. -/
def timeIndicesAt (ch : PhysChannel) (slot : ℕ) : List ℕ :=
  List.range' (ch.start_symbol + slot * 14) ch.num_symbols

/-- Embedding of `ResourceElement` (resources.py): an optional owning
channel plus the local offsets into the channel's data array. -/
structure ResourceElement where
  channel : Option PhysChannel
  re_idx : ℕ
  sym_idx : ℕ
deriving DecidableEq, Repr

/-- Embedding of the `ResourceElement.channel_type` property.  The
`SSBlock` bitmap branch of the source is omitted: `channels/ssblock.py` is
absent from `src/`, and no claim allocates an SSBlock. -/
def channelTypeOf (re : ResourceElement) : ChannelType :=
  match re.channel with
  | none => ChannelType.EMPTY
  | some ch =>
    match ch.ref_positions with
    | some ps => if re.re_idx % 12 ∈ ps then ChannelType.DL_DMRS else ch.channel_type
    | none => ch.channel_type

/-- Embedding of the `ResourceElement.data` property: `0+0j` when
unowned, otherwise the owning channel's data at the local offsets. -/
def dataOf (re : ResourceElement) : ℚ × ℚ :=
  match re.channel with
  | none => (0, 0)
  | some ch => (ch.data.getD re.re_idx []).getD re.sym_idx (0, 0)

/-- Embedding of `ResourceElement.can_add_channel`: free REs accept any
channel; an occupied RE accepts only a PDCCH when the RE currently reads
as CORESET. -/
def canAddChannel (re : ResourceElement) (newCh : PhysChannel) : Bool :=
  match re.channel with
  | none => true
  | some _ =>
    decide (newCh.channel_type = ChannelType.PDCCH ∧
      channelTypeOf re = ChannelType.CORESET)

/-- Python's `min` over a list of indices (the source only applies it to
nonempty ranges). -/
def listMin : List ℕ → ℕ
  | [] => 0
  | a :: t => t.foldl min a

def defaultRE : ResourceElement := ⟨none, 0, 0⟩

/-- Embedding of `ResourceGrid`: dense `n_subcarriers x n_symbols` array
of resource elements. -/
structure ResourceGrid where
  n_subcarriers : ℕ
  n_symbols : ℕ
  grid : List (List ResourceElement)
deriving DecidableEq, Repr

/-- Embedding of `ResourceGrid.__post_init__`: every cell starts as a
fresh `ResourceElement()` (no channel, zero offsets). -/
def mkGrid (nsc nsym : ℕ) : ResourceGrid :=
  ⟨nsc, nsym, List.replicate nsc (List.replicate nsym defaultRE)⟩

def getRE (g : ResourceGrid) (i j : ℕ) : ResourceElement :=
  (g.grid.getD i []).getD j defaultRE

def setRE (g : ResourceGrid) (i j : ℕ) (re : ResourceElement) : ResourceGrid :=
  { g with grid := g.grid.set i ((g.grid.getD i []).set j re) }

/-- The conflict scan of `add_channel` for one slot, in the source's loop
order (subcarriers outer, symbols inner), returning the first colliding
`(subcarrier, symbol)` pair. -/
def findConflict (g : ResourceGrid) (ch : PhysChannel) (slot : ℕ) : Option (ℕ × ℕ) :=
  (freqIndices ch).findSome? (fun i =>
    ((timeIndicesAt ch slot).find? (fun j => ! canAddChannel (getRE g i j) ch)).map
      (fun j => (i, j)))

/-- The write phase of `add_channel` for one slot: every targeted RE gets
the channel reference and its offsets relative to the channel's minimum
frequency/time index. -/
def writeSlot (g : ResourceGrid) (ch : PhysChannel) (slot : ℕ) : ResourceGrid :=
  (freqIndices ch).foldl (fun g1 i =>
    (timeIndicesAt ch slot).foldl (fun g2 j =>
      setRE g2 i j
        ⟨some ch, i - listMin (freqIndices ch), j - listMin (timeIndicesAt ch slot)⟩) g1) g

/-- The slot loop of `add_channel`: per slot, first scan for conflicts and
raise (keeping the grid state reached so far), else write the slot and
continue. -/
def addChannelSlots (ch : PhysChannel) :
    ResourceGrid → List ℕ → ResourceGrid × Option (ℕ × ℕ)
  | g, [] => (g, none)
  | g, s :: rest =>
    match findConflict g ch s with
    | some e => (g, some e)
    | none => addChannelSlots ch (writeSlot g ch s) rest

/-- Embedding of `ResourceGrid.add_channel`: the returned grid is the
state after the call (the Python method mutates in place and raises
`ValueError` on a conflict); the second component is the conflict, if any. -/
def addChannel (g : ResourceGrid) (ch : PhysChannel) :
    ResourceGrid × Option (ℕ × ℕ) :=
  addChannelSlots ch g ch.slot_pattern

/-- Embedding of the `ResourceGrid.channel_types` projection. -/
def channelTypes (g : ResourceGrid) : List (List ChannelType) :=
  g.grid.map (fun row => row.map channelTypeOf)

/-- Embedding of the `ResourceGrid.values` projection. -/
def gridValues (g : ResourceGrid) : List (List (ℚ × ℚ)) :=
  g.grid.map (fun row => row.map dataOf)

/-- A PDSCH occupying RB 0, symbol 0, slot 1 only. -/
def chanA : PhysChannel := ⟨ChannelType.PDSCH, 0, 1, 0, 1, [1], none, []⟩

/-- A PDSCH occupying RB 0, symbol 0, in slots 0 and 1; its slot-1
footprint collides with `chanA`. -/
def chanB : PhysChannel := ⟨ChannelType.PDSCH, 0, 1, 0, 1, [0, 1], none, []⟩

/-- A 12x28 grid (two slots) holding `chanA` in slot 1. -/
def gridC1 : ResourceGrid := (addChannel (mkGrid 12 28) chanA).1

/-- C1 counterexample: adding `chanB` to `gridC1` fails with a conflict
(in slot 1), yet the grid is changed — the RE at subcarrier 0, symbol 0
now carries `chanB`, because slot 0 was written before the slot-1 conflict
was discovered. -/
theorem add_channel_failure_mutates_grid :
    (addChannel gridC1 chanB).2.isSome = true ∧
      getRE (addChannel gridC1 chanB).1 0 0 ≠ getRE gridC1 0 0 := by
  decide

theorem addChannelSlots_conflict (ch : PhysChannel) :
    ∀ (slots : List ℕ) (g : ResourceGrid) (e : ℕ × ℕ),
      (addChannelSlots ch g slots).2 = some e →
      ∃ pre s post, slots = pre ++ s :: post ∧
        (addChannelSlots ch g slots).1 =
          pre.foldl (fun g' s' => writeSlot g' ch s') g ∧
        findConflict (pre.foldl (fun g' s' => writeSlot g' ch s') g) ch s = some e := by
  intro slots
  induction slots with
  | nil => intro g e h; simp [addChannelSlots] at h
  | cons s rest ih =>
    intro g e h
    rw [addChannelSlots] at h ⊢
    cases hf : findConflict g ch s with
    | some e' =>
      rw [hf] at h
      dsimp only at h ⊢
      refine ⟨[], s, rest, rfl, rfl, ?_⟩
      simp only [List.foldl_nil]
      rw [hf]
      simpa using h
    | none =>
      rw [hf] at h
      dsimp only at h ⊢
      obtain ⟨pre, s', post, hsplit, hfst, hconf⟩ := ih (writeSlot g ch s) e h
      exact ⟨s :: pre, s', post, by rw [hsplit, List.cons_append],
        by simpa using hfst, by simpa using hconf⟩

/-- C1 amended: `add_channel` is atomic per slot, not per call — on a
conflict, the slots of `slot_pattern` before the conflicting slot have
already been written (the returned grid is exactly those writes applied),
no RE of the conflicting slot is written, and in particular a single-slot
channel leaves the grid unchanged on failure. -/
theorem add_channel_per_slot_atomicity :
    (∀ (g : ResourceGrid) (ch : PhysChannel) (e : ℕ × ℕ),
        (addChannel g ch).2 = some e →
        ∃ pre s post, ch.slot_pattern = pre ++ s :: post ∧
          (addChannel g ch).1 = pre.foldl (fun g' s' => writeSlot g' ch s') g ∧
          findConflict (pre.foldl (fun g' s' => writeSlot g' ch s') g) ch s = some e) ∧
    (∀ (g : ResourceGrid) (ch : PhysChannel) (s0 : ℕ) (e : ℕ × ℕ),
        ch.slot_pattern = [s0] → (addChannel g ch).2 = some e →
        (addChannel g ch).1 = g) := by
  constructor
  · intro g ch e h
    exact addChannelSlots_conflict ch ch.slot_pattern g e h
  · intro g ch s0 e hp h
    obtain ⟨pre, s', post, hsplit, hfst, _⟩ :=
      addChannelSlots_conflict ch ch.slot_pattern g e h
    rw [hp] at hsplit
    have hpre : pre = [] := by
      have hlen := congrArg List.length hsplit
      simp at hlen
      rcases pre with _ | ⟨a, t⟩
      · rfl
      · exfalso; simp at hlen; omega
    rw [hpre] at hfst
    simpa using hfst

/-- Closed witness for `add_channel_per_slot_atomicity`. -/
theorem add_channel_per_slot_atomicity_witness :
    (addChannel gridC1 chanB).2 = some (0, 14) ∧
      ∃ pre s post, chanB.slot_pattern = pre ++ s :: post ∧
        (addChannel gridC1 chanB).1 =
          pre.foldl (fun g' s' => writeSlot g' chanB s') gridC1 ∧
        findConflict (pre.foldl (fun g' s' => writeSlot g' chanB s') gridC1)
          chanB s = some (0, 14) :=
  ⟨by decide, add_channel_per_slot_atomicity.1 gridC1 chanB (0, 14) (by decide)⟩

/-- Modelled from the spec: the CORESET channel variant (its class is
absent from `src/`; only `signal_builder.py` references it).  Per the
spec, a CORESET reserves a time/frequency region that PDCCH later fills,
with placement fields like any other channel. -/
def coresetCh : PhysChannel := ⟨ChannelType.CORESET, 0, 6, 0, 2, [0], none, []⟩

/-- A PDCCH with the identical footprint; its reference-signal positions
are the source's `DMRS_POSITIONS = [1, 5, 9]` (channels/pdcch.py). -/
def pdcchCh : PhysChannel := ⟨ChannelType.PDCCH, 0, 6, 0, 2, [0], some [1, 5, 9], []⟩

/-- A 72x2 grid holding the CORESET. -/
def gridAfterCoreset : ResourceGrid := (addChannel (mkGrid 72 2) coresetCh).1

set_option maxRecDepth 100000 in
/-- C4: an RE accepts a channel only when it is EMPTY or when a PDCCH
lands on an RE reading as CORESET; concretely, CORESET at
`(start_rb=0, num_rb=6, start_symbol=0, num_symbols=2, slot=[0])` then
PDCCH at the identical footprint succeeds on every footprint element,
while a second CORESET there fails with a conflict. -/
theorem re_occupancy_rule_and_coreset_overlay :
    (∀ (re : ResourceElement) (ch : PhysChannel),
        canAddChannel re ch = true →
        channelTypeOf re = ChannelType.EMPTY ∨
          (ch.channel_type = ChannelType.PDCCH ∧
            channelTypeOf re = ChannelType.CORESET)) ∧
    ((addChannel (mkGrid 72 2) coresetCh).2 = none ∧
      (addChannel gridAfterCoreset pdcchCh).2 = none ∧
      (∀ i, i < 72 → ∀ j, j < 2 →
        (getRE (addChannel gridAfterCoreset pdcchCh).1 i j).channel = some pdcchCh) ∧
      (addChannel gridAfterCoreset coresetCh).2.isSome = true) := by
  constructor
  · intro re ch h
    cases hre : re.channel with
    | none =>
      left
      simp [channelTypeOf, hre]
    | some c =>
      right
      rw [canAddChannel, hre] at h
      simpa using of_decide_eq_true h
  · decide

/-- Closed witness for `re_occupancy_rule_and_coreset_overlay`. -/
theorem re_occupancy_rule_witness :
    canAddChannel defaultRE pdcchCh = true ∧
      (channelTypeOf defaultRE = ChannelType.EMPTY ∨
        (pdcchCh.channel_type = ChannelType.PDCCH ∧
          channelTypeOf defaultRE = ChannelType.CORESET)) :=
  ⟨by decide, re_occupancy_rule_and_coreset_overlay.1 defaultRE pdcchCh (by decide)⟩

/-- C10: an RE with no owning channel reads as EMPTY with value `0+0j`,
and a freshly constructed grid projects to all-EMPTY channel types and
all-zero values. -/
theorem fresh_grid_is_empty :
    (∀ re : ResourceElement, re.channel = none →
        channelTypeOf re = ChannelType.EMPTY ∧ dataOf re = (0, 0)) ∧
    (∀ nsc nsym : ℕ,
        channelTypes (mkGrid nsc nsym) =
          List.replicate nsc (List.replicate nsym ChannelType.EMPTY) ∧
        gridValues (mkGrid nsc nsym) =
          List.replicate nsc (List.replicate nsym ((0 : ℚ), (0 : ℚ)))) := by
  constructor
  · intro re h
    constructor
    · simp [channelTypeOf, h]
    · simp [dataOf, h]
  · intro nsc nsym
    constructor
    · simp [channelTypes, mkGrid, List.map_replicate, channelTypeOf, defaultRE]
    · simp [gridValues, mkGrid, List.map_replicate, dataOf, defaultRE]

/-- Closed witness for `fresh_grid_is_empty`. -/
theorem fresh_grid_is_empty_witness :
    (ResourceElement.mk none 3 5).channel = none ∧
      (channelTypeOf ⟨none, 3, 5⟩ = ChannelType.EMPTY ∧ dataOf ⟨none, 3, 5⟩ = (0, 0)) :=
  ⟨rfl, fresh_grid_is_empty.1 ⟨none, 3, 5⟩ rfl⟩

/-! ## OFDM parameter calculation (waveforms/ofdm.py) -/

attribute [local semireducible] Rat.add Rat.mul Rat.sub Rat.inv Rat.ofScientific

inductive CpType where
  | normal
  | extended
deriving DecidableEq, Repr

/-- The failure modes of `calculate_ofdm_params`: the `assert` on `mu`,
the two explicit `ValueError`s, the extended-CP `ValueError`, and the
`ZeroDivisionError` the padding loop would hit on an empty order list. -/
inductive OfdmError where
  | assertionError
  | nonIntegerNUseful
  | customFftTooSmall
  | extendedCpWrongMu
  | zeroDivisionError
deriving DecidableEq, Repr

/-- Embedding of the `OfdmParams` dataclass. -/
structure OfdmParams where
  fs : ℚ
  mu : ℕ
  scs_hz : ℚ
  N_useful : ℤ
  N_fft : ℤ
  cp_short : ℤ
  cp_long : ℤ
  symbols_per_slot : ℕ
  slot_duration_s : ℚ
  cp_per_symbol : List ℤ
deriving DecidableEq, Repr

/-- The `while n < n_useful: n <<= 1` loop of `pick_fft`.  The fuel
argument only bounds the iteration count so the recursion is structural
(and kernel-reducible); `pick_fft` passes `t.toNat`, which
`pick_fft_least` proves is always enough. -/
def pickFftGo (t : ℤ) : ℤ → ℕ → ℤ
  | cur, 0 => cur
  | cur, fuel + 1 => if cur < t then pickFftGo t (2 * cur) fuel else cur

/-- Embedding of `pick_fft`: the smallest power of two at or above `t`,
computed by doubling from 1. -/
def pick_fft (t : ℤ) : ℤ := pickFftGo t 1 t.toNat

/-- The source's `long_positions`: `[0]` for `mu >= 1`, else `[0, 7]`. -/
def longPositions (mu : ℕ) : List ℕ := if 1 ≤ mu then [0] else [0, 7]

/-- The base per-symbol CP list before timing compensation. -/
def baseCpList (cpLong cpShort : ℤ) (mu : ℕ) : List ℤ :=
  (List.range 14).map (fun i => if i ∈ longPositions mu then cpLong else cpShort)

/-- The padding order when the deficit is positive: long-CP symbols first,
then the remaining symbols in reverse order. -/
def addOrder (mu : ℕ) : List ℕ :=
  longPositions mu ++
    (List.range 14).reverse.filter (fun i => decide (i ∉ longPositions mu))

/-- The removal order when the deficit is negative: reverse-order symbols
whose current CP is positive. -/
def subOrder (cp0 : List ℤ) : List ℕ :=
  (List.range 14).reverse.filter (fun i => decide (0 < cp0.getD i 0))

/-- The `for _ in range(d)` compensation loop: `d` single-sample
adjustments of `delta` cycling through `order`; an empty order is the
source's `k % len(order)` division by zero. -/
def adjustLoop (delta : ℤ) (order : List ℕ) : List ℤ → ℕ → ℕ → Except OfdmError (List ℤ)
  | cp, 0, _ => .ok cp
  | cp, d + 1, k =>
    if order.length = 0 then .error OfdmError.zeroDivisionError
    else
      let i := order.getD (k % order.length) 0
      adjustLoop delta order (cp.set i (cp.getD i 0 + delta)) d (k + 1)

/-- The source's `tc = 1/(BASE_SCS * TC_SCALE * BASE_FFT)`. -/
def ofdmTc : ℚ := 1 / (15000 * 32 * 4096)

/-- The source's `k = tc * K_SCALE`. -/
def ofdmK : ℚ := ofdmTc * 64

/-- The source's `cp_short = round(CP_RATIO_OTHER * 2048 * k * fs / 2**mu)`. -/
def cpShortOf (fs : ℚ) (mu : ℕ) : ℤ :=
  pyRound (144 / 2048 * 2048 * ofdmK * fs / 2 ^ mu)

/-- The source's `cp_long = round(CP_RATIO_FIRST * 2048 * k * fs / 2**mu)`. -/
def cpLongOf (fs : ℚ) (mu : ℕ) : ℤ :=
  pyRound (160 / 2048 * 2048 * ofdmK * fs / 2 ^ mu)

/-- The base CP list of `calculate_ofdm_params` for normal CP. -/
def cp0Of (fs : ℚ) (mu : ℕ) : List ℤ :=
  baseCpList (cpLongOf fs mu) (cpShortOf fs mu) mu

/-- The source's `slot_samples_target = int(round(fs_hz * (1e-3 / 2**mu)))`. -/
def slotTarget (fs : ℚ) (mu : ℕ) : ℤ :=
  pyRound (fs * ((1 / 1000) / 2 ^ mu))

/-- The source's `deficit = slot_samples_target - sum(sym_samples)` where
`sym_samples = [N_useful + c for c in cp_per_symbol]`. -/
def deficitOf (fs : ℚ) (mu : ℕ) (nUseful : ℤ) : ℤ :=
  slotTarget fs mu - (14 * nUseful + (cp0Of fs mu).sum)

/-- The normal-CP tail of `calculate_ofdm_params`: base CP list, deficit,
and single-sample compensation until the slot hits the target exactly. -/
def calcNormal (fs : ℚ) (mu : ℕ) (nUseful nFft : ℤ) (scs : ℚ) :
    Except OfdmError OfdmParams :=
  let cp0 := cp0Of fs mu
  let deficit := deficitOf fs mu nUseful
  if 0 < deficit then
    match adjustLoop 1 (addOrder mu) cp0 deficit.toNat 0 with
    | .error e => .error e
    | .ok cp1 =>
      .ok ⟨fs, mu, scs, nUseful, nFft, cpShortOf fs mu, cpLongOf fs mu, 14,
        1 / 1000 / 2 ^ mu, cp1⟩
  else if deficit < 0 then
    match adjustLoop (-1) (subOrder cp0) cp0 (-deficit).toNat 0 with
    | .error e => .error e
    | .ok cp1 =>
      .ok ⟨fs, mu, scs, nUseful, nFft, cpShortOf fs mu, cpLongOf fs mu, 14,
        1 / 1000 / 2 ^ mu, cp1⟩
  else
    .ok ⟨fs, mu, scs, nUseful, nFft, cpShortOf fs mu, cpLongOf fs mu, 14,
      1 / 1000 / 2 ^ mu, cp0⟩

/-- The extended-CP / normal-CP branch of `calculate_ofdm_params` after
the FFT size is fixed. -/
def calcRest (fs : ℚ) (mu : ℕ) (ct : CpType) (nUseful nFft : ℤ) (scs : ℚ) :
    Except OfdmError OfdmParams :=
  match ct with
  | CpType.extended =>
    if mu ≠ 2 then .error OfdmError.extendedCpWrongMu
    else
      let cpE := pyRound ((nUseful : ℚ) * (512 / 2048))
      .ok ⟨fs, mu, scs, nUseful, nFft, cpE, cpE, 12, 1 / 1000 / 2 ^ mu,
        List.replicate 12 cpE⟩
  | CpType.normal => calcNormal fs mu nUseful nFft scs

/-- Embedding of `calculate_ofdm_params`: the `assert` on `mu`, the
integer-sample-count check with its `1e-9` tolerance, the custom FFT size
check, then the CP computation. -/
def calculate_ofdm_params (fs : ℚ) (mu : ℕ) (ct : CpType) (custom : Option ℤ) :
    Except OfdmError OfdmParams :=
  if 4 < mu then .error OfdmError.assertionError
  else
    let scs : ℚ := 15000 * 2 ^ mu
    let nUsefulF := fs / scs
    if 1 / 10 ^ 9 < |((pyRound nUsefulF : ℚ)) - nUsefulF| then
      .error OfdmError.nonIntegerNUseful
    else
      let nUseful := pyRound nUsefulF
      match custom with
      | some c =>
        if c < nUseful then .error OfdmError.customFftTooSmall
        else calcRest fs mu ct nUseful c scs
      | none => calcRest fs mu ct nUseful (pick_fft nUseful) scs

theorem sum_set_int (l : List ℤ) (i : ℕ) (a : ℤ) (h : i < l.length) :
    (l.set i a).sum = l.sum - l.getD i 0 + a := by
  induction l generalizing i with
  | nil => simp at h
  | cons x t ih =>
    cases i with
    | zero =>
      simp only [List.set, List.sum_cons, List.getD_cons_zero]
      ring
    | succ n =>
      simp only [List.set, List.sum_cons, List.getD_cons_succ]
      rw [ih n (by simpa using h)]
      ring

theorem getD_set_eq (l : List ℤ) (i : ℕ) (a : ℤ) (h : i < l.length) :
    (l.set i a).getD i 0 = a := by
  induction l generalizing i with
  | nil => simp at h
  | cons x t ih =>
    cases i with
    | zero => simp [List.set]
    | succ n =>
      simp only [List.set, List.getD_cons_succ]
      exact ih n (by simpa using h)

theorem getD_set_ne (l : List ℤ) (i j : ℕ) (a : ℤ) (h : i ≠ j) :
    (l.set i a).getD j 0 = l.getD j 0 := by
  induction l generalizing i j with
  | nil => simp [List.set]
  | cons x t ih =>
    cases i with
    | zero =>
      cases j with
      | zero => exact absurd rfl h
      | succ m => simp [List.set]
    | succ n =>
      cases j with
      | zero => simp [List.set]
      | succ m =>
        simp only [List.set, List.getD_cons_succ]
        exact ih n m (by omega)

/-- The compensation loop succeeds on a nonempty in-bounds order, keeps
length 14, adds `d * delta` to the sum, and (for nonnegative `delta`)
never decreases an entry. -/
theorem adjustLoop_ok (delta : ℤ) (order : List ℕ) (hne : order.length ≠ 0)
    (hbd : ∀ i ∈ order, i < 14) :
    ∀ (d k : ℕ) (cp : List ℤ), cp.length = 14 →
      ∃ cp', adjustLoop delta order cp d k = .ok cp' ∧ cp'.length = 14 ∧
        cp'.sum = cp.sum + d * delta ∧
        (0 ≤ delta → ∀ i, cp.getD i 0 ≤ cp'.getD i 0) := by
  intro d
  induction d with
  | zero =>
    intro k cp hlen
    exact ⟨cp, rfl, hlen, by simp, fun _ i => le_refl _⟩
  | succ d ih =>
    intro k cp hlen
    rw [adjustLoop, if_neg hne]
    have hmem : order.getD (k % order.length) 0 ∈ order := by
      have hklt : k % order.length < order.length := Nat.mod_lt _ (by omega)
      rw [List.getD_eq_getElem _ _ hklt]
      exact List.getElem_mem hklt
    have hidx : order.getD (k % order.length) 0 < 14 := hbd _ hmem
    set i0 := order.getD (k % order.length) 0 with hi0
    set cp1 := cp.set i0 (cp.getD i0 0 + delta) with hcp1
    have hlen1 : cp1.length = 14 := by rw [hcp1, List.length_set, hlen]
    obtain ⟨cp', hok, hl, hsum, hmono⟩ := ih (k + 1) cp1 hlen1
    refine ⟨cp', hok, hl, ?_, ?_⟩
    · rw [hsum, hcp1, sum_set_int cp i0 _ (by omega)]
      push_cast
      ring
    · intro hd i
      refine le_trans ?_ (hmono hd i)
      rw [hcp1]
      by_cases hij : i0 = i
      · subst hij
        rw [getD_set_eq cp i0 _ (by omega)]
        omega
      · rw [getD_set_ne cp i0 i _ hij]

theorem exists_pos_entry_of_sum_pos (l : List ℤ) (h : 0 < l.sum) :
    ∃ x ∈ l, 0 < x := by
  induction l with
  | nil => simp at h
  | cons x t ih =>
    by_cases hx : 0 < x
    · exact ⟨x, List.mem_cons_self x t, hx⟩
    · have ht : 0 < t.sum := by
        simp only [List.sum_cons] at h
        omega
      obtain ⟨y, hy, hy2⟩ := ih ht
      exact ⟨y, List.mem_cons_of_mem x hy, hy2⟩

theorem baseCpList_length (cpLong cpShort : ℤ) (mu : ℕ) :
    (baseCpList cpLong cpShort mu).length = 14 := by
  simp [baseCpList]

theorem baseCpList_getD (cpLong cpShort : ℤ) (mu : ℕ) (i : ℕ) (h : i < 14) :
    (baseCpList cpLong cpShort mu).getD i 0 =
      if i ∈ longPositions mu then cpLong else cpShort := by
  rw [baseCpList, List.getD_eq_getElem _ _ (by simpa using h)]
  simp

theorem cpShortOf_nonneg (fs : ℚ) (mu : ℕ) (hfs : 0 ≤ fs) : 0 ≤ cpShortOf fs mu := by
  apply pyRound_nonneg
  have h2 : (0:ℚ) < 2 ^ mu := by positivity
  rw [ofdmK, ofdmTc]
  positivity

theorem cpLongOf_nonneg (fs : ℚ) (mu : ℕ) (hfs : 0 ≤ fs) : 0 ≤ cpLongOf fs mu := by
  apply pyRound_nonneg
  have h2 : (0:ℚ) < 2 ^ mu := by positivity
  rw [ofdmK, ofdmTc]
  positivity

theorem cp0Of_getD_nonneg (fs : ℚ) (mu : ℕ) (hfs : 0 ≤ fs) (i : ℕ) :
    0 ≤ (cp0Of fs mu).getD i 0 := by
  by_cases h : i < 14
  · rw [cp0Of, baseCpList_getD _ _ _ _ h]
    split_ifs
    · exact cpLongOf_nonneg fs mu hfs
    · exact cpShortOf_nonneg fs mu hfs
  · rw [List.getD_eq_getElem?_getD, List.getElem?_eq_none]
    · rfl
    · rw [cp0Of, baseCpList_length]
      omega

theorem addOrder_length_ne (mu : ℕ) : (addOrder mu).length ≠ 0 := by
  unfold addOrder longPositions
  split_ifs <;> simp

theorem addOrder_bd (mu : ℕ) : ∀ i ∈ addOrder mu, i < 14 := by
  intro i hi
  unfold addOrder at hi
  rcases List.mem_append.1 hi with h | h
  · unfold longPositions at h
    split_ifs at h <;> simp at h <;> omega
  · have h2 := List.mem_reverse.1 (List.mem_of_mem_filter h)
    exact List.mem_range.1 h2

theorem subOrder_bd (cp0 : List ℤ) : ∀ i ∈ subOrder cp0, i < 14 := by
  intro i hi
  have h2 := List.mem_reverse.1 (List.mem_of_mem_filter hi)
  exact List.mem_range.1 h2

/-- Core correctness of the normal-CP branch: it succeeds whenever the
slot target is the exact `15 * N_useful` samples, the compensation makes
the per-slot total hit the target exactly, and with a nonnegative deficit
no CP ever shrinks below its base value. -/
theorem calcNormal_ok (fs : ℚ) (mu : ℕ) (nUseful nFft : ℤ) (scs : ℚ)
    (hN : 0 ≤ nUseful) (hfs : 0 ≤ fs)
    (htgt : slotTarget fs mu = 15 * nUseful) :
    ∃ p, calcNormal fs mu nUseful nFft scs = .ok p ∧
      p.fs = fs ∧ p.mu = mu ∧ p.scs_hz = scs ∧ p.N_useful = nUseful ∧
      p.N_fft = nFft ∧ p.cp_short = cpShortOf fs mu ∧ p.cp_long = cpLongOf fs mu ∧
      p.symbols_per_slot = 14 ∧
      p.cp_per_symbol.length = 14 ∧
      14 * nUseful + p.cp_per_symbol.sum = slotTarget fs mu ∧
      (0 ≤ deficitOf fs mu nUseful →
        ∀ i, (cp0Of fs mu).getD i 0 ≤ p.cp_per_symbol.getD i 0) := by
  have hlen0 : (cp0Of fs mu).length = 14 := baseCpList_length _ _ mu
  have hd : deficitOf fs mu nUseful =
      slotTarget fs mu - (14 * nUseful + (cp0Of fs mu).sum) := rfl
  unfold calcNormal
  dsimp only
  split_ifs with hpos hneg
  · obtain ⟨cp', hok, hl, hsum, hmono⟩ :=
      adjustLoop_ok 1 (addOrder mu) (addOrder_length_ne mu) (addOrder_bd mu)
        (deficitOf fs mu nUseful).toNat 0 (cp0Of fs mu) hlen0
    rw [hok]
    have hcast : ((deficitOf fs mu nUseful).toNat : ℤ) = deficitOf fs mu nUseful :=
      Int.toNat_of_nonneg (le_of_lt hpos)
    refine ⟨_, rfl, rfl, rfl, rfl, rfl, rfl, rfl, rfl, rfl, hl, ?_, ?_⟩
    · dsimp only
      rw [hsum]
      omega
    · intro _ i
      exact hmono (by norm_num) i
  · have hsumpos : 0 < (cp0Of fs mu).sum := by omega
    obtain ⟨x, hx, hxpos⟩ := exists_pos_entry_of_sum_pos _ hsumpos
    obtain ⟨i, hi, hgi⟩ := List.mem_iff_getElem.1 hx
    have hi14 : i < 14 := by omega
    have hgd : (cp0Of fs mu).getD i 0 = x := by
      rw [List.getD_eq_getElem _ _ hi, hgi]
    have hmemSub : i ∈ subOrder (cp0Of fs mu) := by
      rw [subOrder]
      refine List.mem_filter.2 ⟨List.mem_reverse.2 (List.mem_range.2 hi14), ?_⟩
      rw [hgd]
      simpa using hxpos
    have hsne : (subOrder (cp0Of fs mu)).length ≠ 0 := by
      intro h0
      rw [List.length_eq_zero] at h0
      rw [h0] at hmemSub
      simp at hmemSub
    obtain ⟨cp', hok, hl, hsum, _⟩ :=
      adjustLoop_ok (-1) (subOrder (cp0Of fs mu)) hsne (subOrder_bd _)
        (-(deficitOf fs mu nUseful)).toNat 0 (cp0Of fs mu) hlen0
    rw [hok]
    have hcast : ((-(deficitOf fs mu nUseful)).toNat : ℤ) = -(deficitOf fs mu nUseful) :=
      Int.toNat_of_nonneg (by omega)
    refine ⟨_, rfl, rfl, rfl, rfl, rfl, rfl, rfl, rfl, rfl, hl, ?_, ?_⟩
    · dsimp only
      rw [hsum]
      have : cp'.sum = (cp0Of fs mu).sum + ((-(deficitOf fs mu nUseful)).toNat : ℤ) * (-1) := by
        rw [hsum]
      omega
    · intro hge
      exact absurd hneg (not_lt.2 hge)
  · have hz : deficitOf fs mu nUseful = 0 := by omega
    refine ⟨_, rfl, rfl, rfl, rfl, rfl, rfl, rfl, rfl, rfl, hlen0, by dsimp only; omega, ?_⟩
    intro _ i
    exact le_refl _

theorem pickFftGo_pow : ∀ (fuel : ℕ) (t : ℤ) (j : ℕ), (t - 2 ^ j).toNat ≤ fuel →
    (∀ m : ℕ, m < j → (2:ℤ) ^ m < t) →
    ∃ k : ℕ, pickFftGo t (2 ^ j) fuel = 2 ^ k ∧ t ≤ 2 ^ k ∧
      ∀ m : ℕ, t ≤ 2 ^ m → (2:ℤ) ^ k ≤ 2 ^ m := by
  intro fuel
  induction fuel with
  | zero =>
    intro t j hfuel hlow
    have hj : (0:ℤ) < 2 ^ j := by positivity
    refine ⟨j, rfl, by omega, ?_⟩
    intro m hm
    rcases Nat.lt_or_ge m j with hmj | hmj
    · exact absurd hm (not_le.2 (hlow m hmj))
    · exact pow_le_pow_right₀ (by norm_num) hmj
  | succ n ih =>
    intro t j hfuel hlow
    have hj : (0:ℤ) < 2 ^ j := by positivity
    by_cases hc : (2:ℤ) ^ j < t
    · rw [pickFftGo, if_pos hc]
      have h2 : (2:ℤ) * 2 ^ j = 2 ^ (j + 1) := by ring
      rw [h2]
      apply ih t (j + 1)
      · have hsp : (2:ℤ) ^ (j + 1) = 2 ^ j + 2 ^ j := by ring
        omega
      · intro m hm
        rcases Nat.lt_or_ge m j with hmj | hmj
        · exact hlow m hmj
        · have hmj' : m = j := by omega
          rw [hmj']
          exact hc
    · rw [pickFftGo, if_neg hc]
      refine ⟨j, rfl, by omega, ?_⟩
      intro m hm
      rcases Nat.lt_or_ge m j with hmj | hmj
      · exact absurd hm (not_le.2 (hlow m hmj))
      · exact pow_le_pow_right₀ (by norm_num) hmj

/-- C8 support: `pick_fft t` is the least power of two at or above `t`. -/
theorem pick_fft_least (t : ℤ) :
    (∃ k : ℕ, pick_fft t = 2 ^ k) ∧ t ≤ pick_fft t ∧
      ∀ m : ℕ, t ≤ 2 ^ m → pick_fft t ≤ 2 ^ m := by
  obtain ⟨k, hk, h1, h2⟩ :=
    pickFftGo_pow t.toNat t 0 (by omega) (fun m hm => absurd hm (Nat.not_lt_zero m))
  rw [pick_fft]
  have hone : (1:ℤ) = 2 ^ (0:ℕ) := by norm_num
  rw [hone]
  exact ⟨⟨k, hk⟩, by rw [hk]; exact h1, fun m hm => by rw [hk]; exact h2 m hm⟩

instance {ε α : Type} [DecidableEq ε] [DecidableEq α] : DecidableEq (Except ε α) := fun a b =>
  match a, b with
  | Except.ok x, Except.ok y =>
    if h : x = y then Decidable.isTrue (by rw [h])
    else Decidable.isFalse (fun hc => h (Except.ok.inj hc))
  | Except.error x, Except.error y =>
    if h : x = y then Decidable.isTrue (by rw [h])
    else Decidable.isFalse (fun hc => h (Except.error.inj hc))
  | Except.ok _, Except.error _ => Decidable.isFalse (fun hc => Except.noConfusion hc)
  | Except.error _, Except.ok _ => Decidable.isFalse (fun hc => Except.noConfusion hc)

/-- The parameters `calculate_ofdm_params(11.52e6, 1)` produces. -/
def ofdmParams1152 : OfdmParams :=
  ⟨11520000, 1, 30000, 384, 512, 27, 30, 14, 1 / 2000,
    [31, 27, 27, 27, 27, 27, 27, 27, 27, 27, 27, 27, 28, 28]⟩

set_option maxRecDepth 10000 in
/-- C5: for any sampling rate that is an integer multiple `N` of the
subcarrier spacing, `calculate_ofdm_params` with normal CP succeeds with a
14-entry CP list summing with the useful sizes to exactly
`round(fs * 1ms / 2^mu) = 15 * N`; the base long-CP positions are `[0]`
for `mu >= 1` and `[0, 7]` for `mu = 0`; and at `mu = 1`,
`fs = 11.52 MHz` it returns `N_useful = 384`, `N_fft = 512`, a slot of
exactly 5760 samples, with symbol 0 carrying the (largest) long CP. -/
theorem ofdm_params_integer_rate (N mu : ℕ) (fs : ℚ) (hmu : mu ≤ 4)
    (hfs : fs = (N : ℚ) * (15000 * 2 ^ mu)) :
    (∃ p, calculate_ofdm_params fs mu CpType.normal none = .ok p ∧
      p.cp_per_symbol.length = 14 ∧
      p.N_useful = (N : ℤ) ∧
      14 * p.N_useful + p.cp_per_symbol.sum = slotTarget fs mu ∧
      slotTarget fs mu = 15 * (N : ℤ)) ∧
    longPositions mu = (if 1 ≤ mu then [0] else [0, 7]) ∧
    (∀ i, i < 14 → (cp0Of fs mu).getD i 0 =
      if i ∈ longPositions mu then cpLongOf fs mu else cpShortOf fs mu) ∧
    (calculate_ofdm_params 11520000 1 CpType.normal none = Except.ok ofdmParams1152 ∧
      ofdmParams1152.N_useful = 384 ∧ ofdmParams1152.N_fft = 512 ∧
      14 * ofdmParams1152.N_useful + ofdmParams1152.cp_per_symbol.sum = 5760 ∧
      ofdmParams1152.cp_per_symbol.getD 0 0 = 31 ∧
      (∀ i, i < 14 → 1 ≤ i →
        ofdmParams1152.cp_per_symbol.getD i 0 < ofdmParams1152.cp_per_symbol.getD 0 0)) := by
  have hscs : (0:ℚ) < 15000 * 2 ^ mu := by positivity
  have hratio : fs / (15000 * 2 ^ mu) = ((N : ℤ) : ℚ) := by
    rw [hfs]
    push_cast
    field_simp
  have hpy : pyRound (fs / (15000 * 2 ^ mu)) = (N : ℤ) := by
    rw [hratio, pyRound_intCast]
  have htol : ¬ (1 / 10 ^ 9 < |((pyRound (fs / (15000 * 2 ^ mu)) : ℤ) : ℚ) -
      fs / (15000 * 2 ^ mu)|) := by
    rw [hpy, hratio]
    simp
  have htgt : slotTarget fs mu = 15 * (N : ℤ) := by
    rw [slotTarget, hfs]
    have hq : (N : ℚ) * (15000 * 2 ^ mu) * (1 / 1000 / 2 ^ mu) =
        (((15 * (N : ℤ) : ℤ)) : ℚ) := by
      push_cast
      field_simp
      ring
    rw [hq, pyRound_intCast]
  obtain ⟨p, hok, hfs', hmu', hscs', hN', hNf', hcs', hcl', hsps', hlen', hsum', _⟩ :=
    calcNormal_ok fs mu (N : ℤ) (pick_fft (N : ℤ)) (15000 * 2 ^ mu)
      (by positivity) (by rw [hfs]; positivity) htgt
  have hcalc : calculate_ofdm_params fs mu CpType.normal none = .ok p := by
    unfold calculate_ofdm_params
    rw [if_neg (by omega : ¬ 4 < mu)]
    dsimp only
    rw [if_neg htol, hpy]
    exact hok
  refine ⟨⟨p, hcalc, hlen', hN', by rw [hN']; exact hsum', htgt⟩, rfl, ?_, ?_⟩
  · intro i hi
    exact baseCpList_getD _ _ mu i hi
  · decide

/-- Closed witness for `ofdm_params_integer_rate`. -/
theorem ofdm_params_integer_rate_witness :
    (1 ≤ 4 ∧ (11520000 : ℚ) = (384 : ℕ) * (15000 * 2 ^ 1)) ∧
      (∃ p, calculate_ofdm_params 11520000 1 CpType.normal none = .ok p ∧
        p.cp_per_symbol.length = 14 ∧
        p.N_useful = ((384 : ℕ) : ℤ) ∧
        14 * p.N_useful + p.cp_per_symbol.sum = slotTarget 11520000 1 ∧
        slotTarget 11520000 1 = 15 * ((384 : ℕ) : ℤ)) ∧
      longPositions 1 = (if 1 ≤ 1 then [0] else [0, 7]) ∧
      (∀ i, i < 14 → (cp0Of 11520000 1).getD i 0 =
        if i ∈ longPositions 1 then cpLongOf 11520000 1 else cpShortOf 11520000 1) ∧
      (calculate_ofdm_params 11520000 1 CpType.normal none = Except.ok ofdmParams1152 ∧
        ofdmParams1152.N_useful = 384 ∧ ofdmParams1152.N_fft = 512 ∧
        14 * ofdmParams1152.N_useful + ofdmParams1152.cp_per_symbol.sum = 5760 ∧
        ofdmParams1152.cp_per_symbol.getD 0 0 = 31 ∧
        (∀ i, i < 14 → 1 ≤ i →
          ofdmParams1152.cp_per_symbol.getD i 0 < ofdmParams1152.cp_per_symbol.getD 0 0)) :=
  ⟨⟨by norm_num, by norm_num⟩,
    ofdm_params_integer_rate 384 1 11520000 (by norm_num) (by norm_num)⟩

theorem calcRest_fields (fs : ℚ) (mu : ℕ) (ct : CpType) (nU nF : ℤ) (scs : ℚ)
    (p : OfdmParams) (h : calcRest fs mu ct nU nF scs = .ok p) :
    p.N_useful = nU ∧ p.N_fft = nF := by
  cases ct with
  | extended =>
    unfold calcRest at h
    split_ifs at h
    cases h
    exact ⟨rfl, rfl⟩
  | normal =>
    unfold calcRest calcNormal at h
    dsimp only at h
    split_ifs at h with h1 h2
    · cases hadj : adjustLoop 1 (addOrder mu) (cp0Of fs mu) (deficitOf fs mu nU).toNat 0 with
      | error e => rw [hadj] at h; cases h
      | ok cp1 => rw [hadj] at h; cases h; exact ⟨rfl, rfl⟩
    · cases hadj : adjustLoop (-1) (subOrder (cp0Of fs mu)) (cp0Of fs mu)
          (-deficitOf fs mu nU).toNat 0 with
      | error e => rw [hadj] at h; cases h
      | ok cp1 => rw [hadj] at h; cases h; exact ⟨rfl, rfl⟩
    · cases h; exact ⟨rfl, rfl⟩

theorem calcRest_ok (fs : ℚ) (mu : ℕ) (ct : CpType) (nU nF : ℤ) (scs : ℚ)
    (hN : 0 ≤ nU) (hfs : 0 ≤ fs) (htgt : slotTarget fs mu = 15 * nU)
    (hext : ct = CpType.extended → mu = 2) :
    ∃ p, calcRest fs mu ct nU nF scs = .ok p := by
  cases ct with
  | extended =>
    unfold calcRest
    rw [if_neg (by intro h2; exact h2 (hext rfl))]
    exact ⟨_, rfl⟩
  | normal =>
    obtain ⟨p, hok, _⟩ := calcNormal_ok fs mu nU nF scs hN hfs htgt
    exact ⟨p, hok⟩

/-- When the tolerance check passes on a positive `fs`, the slot target is
exactly `15 * N_useful` samples and `N_useful` is nonnegative. -/
theorem slotTarget_of_tol (fs : ℚ) (mu : ℕ) (hfs : 0 < fs)
    (htol : ¬ (1 / 10 ^ 9 < |((pyRound (fs / (15000 * 2 ^ mu)) : ℤ) : ℚ) -
      fs / (15000 * 2 ^ mu)|)) :
    slotTarget fs mu = 15 * pyRound (fs / (15000 * 2 ^ mu)) ∧
      0 ≤ pyRound (fs / (15000 * 2 ^ mu)) := by
  push_neg at htol
  set x := fs / (15000 * 2 ^ mu) with hx
  have hxpos : 0 < x := by
    rw [hx]
    have h2 : (0:ℚ) < 15000 * 2 ^ mu := by positivity
    positivity
  have hnn : 0 ≤ pyRound x := pyRound_nonneg (le_of_lt hxpos)
  refine ⟨?_, hnn⟩
  have hform : fs * ((1 : ℚ) / 1000 / 2 ^ mu) = 15 * x := by
    rw [hx]
    have h2 : (2:ℚ) ^ mu ≠ 0 := by positivity
    field_simp
    ring
  rw [slotTarget, hform]
  apply pyRound_eq_of_abs_lt
  have hdiff : 15 * x - ((15 * pyRound x : ℤ) : ℚ) = -(15 * (((pyRound x : ℤ) : ℚ) - x)) := by
    push_cast
    ring
  rw [hdiff, abs_neg, abs_mul, abs_of_nonneg (by norm_num : (0:ℚ) ≤ (15:ℚ))]
  linarith

theorem calculate_reduces (fs : ℚ) (mu : ℕ) (ct : CpType) (custom : Option ℤ)
    (hmu : ¬ 4 < mu)
    (htol : ¬ (1 / 10 ^ 9 < |((pyRound (fs / (15000 * 2 ^ mu)) : ℤ) : ℚ) -
      fs / (15000 * 2 ^ mu)|)) :
    calculate_ofdm_params fs mu ct custom =
      match custom with
      | some c =>
        if c < pyRound (fs / (15000 * 2 ^ mu)) then .error OfdmError.customFftTooSmall
        else calcRest fs mu ct (pyRound (fs / (15000 * 2 ^ mu))) c (15000 * 2 ^ mu)
      | none => calcRest fs mu ct (pyRound (fs / (15000 * 2 ^ mu)))
          (pick_fft (pyRound (fs / (15000 * 2 ^ mu)))) (15000 * 2 ^ mu) := by
  unfold calculate_ofdm_params
  rw [if_neg hmu]
  dsimp only
  rw [if_neg htol]

/-- C8 amended: for `mu` in 0..4 and a positive sampling rate,
`calculate_ofdm_params` fails exactly when `fs / (15000 * 2^mu)` differs
from its nearest integer by more than the code's `1e-9` tolerance, or a
custom FFT size below `N_useful` is supplied, or extended CP is requested
with `mu` different from 2; on success, `N_fft` is the supplied override,
or else the smallest power of two at or above `N_useful`. -/
theorem ofdm_params_failure_conditions (fs : ℚ) (mu : ℕ) (ct : CpType)
    (custom : Option ℤ) (hmu : mu ≤ 4) (hfs : 0 < fs) :
    ((∃ e, calculate_ofdm_params fs mu ct custom = .error e) ↔
      (1 / 10 ^ 9 < |((pyRound (fs / (15000 * 2 ^ mu)) : ℤ) : ℚ) -
        fs / (15000 * 2 ^ mu)| ∨
       (∃ c, custom = some c ∧ c < pyRound (fs / (15000 * 2 ^ mu))) ∨
       (ct = CpType.extended ∧ mu ≠ 2))) ∧
    (∀ p, calculate_ofdm_params fs mu ct custom = .ok p →
      (∀ c, custom = some c → p.N_fft = c) ∧
      (custom = none → p.N_fft = pick_fft p.N_useful ∧
        (∃ k : ℕ, p.N_fft = 2 ^ k) ∧ p.N_useful ≤ p.N_fft ∧
        (∀ m : ℕ, p.N_useful ≤ 2 ^ m → p.N_fft ≤ 2 ^ m))) := by
  have hmu' : ¬ 4 < mu := by omega
  constructor
  · constructor
    · rintro ⟨e, he⟩
      by_cases htol : 1 / 10 ^ 9 < |((pyRound (fs / (15000 * 2 ^ mu)) : ℤ) : ℚ) -
          fs / (15000 * 2 ^ mu)|
      · exact Or.inl htol
      · right
        rw [calculate_reduces fs mu ct custom hmu' htol] at he
        obtain ⟨htgt, hnn⟩ := slotTarget_of_tol fs mu hfs htol
        cases custom with
        | some c =>
          dsimp only at he
          by_cases hlt : c < pyRound (fs / (15000 * 2 ^ mu))
          · exact Or.inl ⟨c, rfl, hlt⟩
          · right
            rw [if_neg hlt] at he
            cases hct : ct with
            | normal =>
              rw [hct] at he
              obtain ⟨p, hok⟩ := calcRest_ok fs mu CpType.normal _ c _ hnn
                (le_of_lt hfs) htgt (by intro h; cases h)
              rw [hok] at he
              cases he
            | extended =>
              rw [hct] at he
              by_cases hmu2 : mu = 2
              · obtain ⟨p, hok⟩ := calcRest_ok fs mu CpType.extended _ c _ hnn
                  (le_of_lt hfs) htgt (fun _ => hmu2)
                rw [hok] at he
                cases he
              · exact ⟨rfl, hmu2⟩
        | none =>
          dsimp only at he
          right
          cases hct : ct with
          | normal =>
            rw [hct] at he
            obtain ⟨p, hok⟩ := calcRest_ok fs mu CpType.normal _ _ _ hnn
              (le_of_lt hfs) htgt (by intro h; cases h)
            rw [hok] at he
            cases he
          | extended =>
            rw [hct] at he
            by_cases hmu2 : mu = 2
            · obtain ⟨p, hok⟩ := calcRest_ok fs mu CpType.extended _ _ _ hnn
                (le_of_lt hfs) htgt (fun _ => hmu2)
              rw [hok] at he
              cases he
            · exact ⟨rfl, hmu2⟩
    · intro hdis
      by_cases htol : 1 / 10 ^ 9 < |((pyRound (fs / (15000 * 2 ^ mu)) : ℤ) : ℚ) -
          fs / (15000 * 2 ^ mu)|
      · refine ⟨OfdmError.nonIntegerNUseful, ?_⟩
        unfold calculate_ofdm_params
        rw [if_neg hmu']
        dsimp only
        rw [if_pos htol]
      · rcases hdis with h | ⟨c, hc, hlt⟩ | ⟨hct, hmu2⟩
        · exact absurd h htol
        · refine ⟨OfdmError.customFftTooSmall, ?_⟩
          rw [calculate_reduces fs mu ct custom hmu' htol, hc]
          dsimp only
          rw [if_pos hlt]
        · subst hct
          rw [calculate_reduces fs mu CpType.extended custom hmu' htol]
          cases custom with
          | some c =>
            dsimp only
            by_cases hlt : c < pyRound (fs / (15000 * 2 ^ mu))
            · exact ⟨OfdmError.customFftTooSmall, by rw [if_pos hlt]⟩
            · refine ⟨OfdmError.extendedCpWrongMu, ?_⟩
              rw [if_neg hlt]
              unfold calcRest
              rw [if_pos hmu2]
          | none =>
            refine ⟨OfdmError.extendedCpWrongMu, ?_⟩
            dsimp only
            unfold calcRest
            rw [if_pos hmu2]
  · intro p hp
    by_cases htol : 1 / 10 ^ 9 < |((pyRound (fs / (15000 * 2 ^ mu)) : ℤ) : ℚ) -
        fs / (15000 * 2 ^ mu)|
    · exfalso
      have he : calculate_ofdm_params fs mu ct custom = .error OfdmError.nonIntegerNUseful := by
        unfold calculate_ofdm_params
        rw [if_neg hmu']
        dsimp only
        rw [if_pos htol]
      rw [hp] at he
      cases he
    · rw [calculate_reduces fs mu ct custom hmu' htol] at hp
      cases custom with
      | some c =>
        dsimp only at hp
        by_cases hlt : c < pyRound (fs / (15000 * 2 ^ mu))
        · rw [if_pos hlt] at hp
          cases hp
        · rw [if_neg hlt] at hp
          obtain ⟨hNu, hNf⟩ := calcRest_fields _ _ _ _ _ _ _ hp
          refine ⟨?_, ?_⟩
          · intro c' hc'
            injection hc' with hcc
            rw [← hcc]
            exact hNf
          · intro hn
            cases hn
      | none =>
        dsimp only at hp
        obtain ⟨hNu, hNf⟩ := calcRest_fields _ _ _ _ _ _ _ hp
        refine ⟨fun c' hc' => Option.noConfusion hc', fun _ => ?_⟩
        rw [hNf, hNu]
        obtain ⟨⟨k, hk⟩, hle, hmin⟩ := pick_fft_least (pyRound (fs / (15000 * 2 ^ mu)))
        exact ⟨rfl, ⟨k, hk⟩, hle, hmin⟩

/-- Closed witness for `ofdm_params_failure_conditions`. -/
theorem ofdm_params_failure_conditions_witness :
    ((0 : ℕ) ≤ 4 ∧ (0 : ℚ) < 15000) ∧
      (((∃ e, calculate_ofdm_params 15000 0 CpType.normal none = .error e) ↔
        (1 / 10 ^ 9 < |((pyRound ((15000 : ℚ) / (15000 * 2 ^ (0:ℕ))) : ℤ) : ℚ) -
          (15000 : ℚ) / (15000 * 2 ^ (0:ℕ))| ∨
         (∃ c, (none : Option ℤ) = some c ∧
            c < pyRound ((15000 : ℚ) / (15000 * 2 ^ (0:ℕ)))) ∨
         (CpType.normal = CpType.extended ∧ (0:ℕ) ≠ 2))) ∧
      (∀ p, calculate_ofdm_params 15000 0 CpType.normal none = .ok p →
        (∀ c, (none : Option ℤ) = some c → p.N_fft = c) ∧
        ((none : Option ℤ) = none → p.N_fft = pick_fft p.N_useful ∧
          (∃ k : ℕ, p.N_fft = 2 ^ k) ∧ p.N_useful ≤ p.N_fft ∧
          (∀ m : ℕ, p.N_useful ≤ 2 ^ m → p.N_fft ≤ 2 ^ m)))) :=
  ⟨⟨by norm_num, by norm_num⟩,
    ofdm_params_failure_conditions 15000 0 CpType.normal none (by norm_num) (by norm_num)⟩

/-- A sampling rate whose ratio to the subcarrier spacing is not an
integer but falls inside the code's `1e-9` tolerance. -/
def fsTol : ℚ := 15000 + 15000 / 10 ^ 10

/-- C8 counterexample: at `fs = 15000 * (1 + 1e-10)`, `mu = 0`, the ratio
`fs / 15000` is not an integer, yet `calculate_ofdm_params` succeeds — so
the function does not fail exactly on non-integer useful-sample counts. -/
theorem ofdm_params_tolerance_counterexample :
    (¬ ∃ n : ℤ, fsTol / (15000 * 2 ^ (0:ℕ)) = (n : ℚ)) ∧
      ∃ p, calculate_ofdm_params fsTol 0 CpType.normal none = .ok p := by
  constructor
  · rintro ⟨n, hn⟩
    have hden : (fsTol / (15000 * 2 ^ (0:ℕ))).den = 10000000000 := by decide
    rw [hn] at hden
    simp [Rat.den_intCast] at hden
  · have hok : (calculate_ofdm_params fsTol 0 CpType.normal none).toOption.isSome = true := by
      decide
    cases hcalc : calculate_ofdm_params fsTol 0 CpType.normal none with
    | ok p => exact ⟨p, rfl⟩
    | error e =>
      rw [hcalc] at hok
      simp [Except.toOption] at hok

/-! ## Waveform assembly (core/waveform.py, utils/resample.py) -/

/-- Modelled from the spec: the `CarrierConfig` fields consumed by
waveform.py (`numerology.mu`, `n_resource_blocks`, `sample_rate`).  The
revision of carrier.py under `src/` lacks the `sample_rate` and
`n_resource_blocks` attributes that waveform.py reads; the spec's data
model defines them, with subcarrier spacing `15 * 2^mu` kHz and
`2^mu` slots per subframe. -/
structure CarrierCfg where
  mu : ℕ
  n_resource_blocks : ℕ
  sample_rate : ℚ
deriving DecidableEq, Repr

/-- Python's `int.bit_length`, with structural fuel (`bitLength` passes
`n`, which always suffices since the argument halves each step). -/
def bitLenAux : ℕ → ℕ → ℕ
  | 0, _ => 0
  | fuel + 1, n => if n = 0 then 0 else bitLenAux fuel (n / 2) + 1

def bitLength (n : ℕ) : ℕ := bitLenAux n n

/-- The source's `n_fft = 1 << (n_subcarriers - 1).bit_length()`. -/
def stdNFft (nsub : ℕ) : ℕ := 1 <<< bitLength (nsub - 1)

/-- The source's `standard_fs = scs_hz * n_fft` with
`scs_hz = subcarrier_spacing * 1000`. -/
def standardFs (cc : CarrierCfg) : ℚ :=
  ((15 * 2 ^ cc.mu) * 1000 : ℚ) * (stdNFft (cc.n_resource_blocks * 12) : ℚ)

/-- The source's `_get_ofdm_params`: OFDM parameters at the standard rate. -/
def getOfdmParams (cc : CarrierCfg) : Except OfdmError OfdmParams :=
  calculate_ofdm_params (standardFs cc) cc.mu CpType.normal none

/-- The zero-padding of `generate_ofdm_symbol`:
`padded[start : start+len] = data` inside an `N_fft` zero buffer with
`start = N_fft//2 - len//2`. -/
def npPadCenter {α : Type} [Zero α] (nfft : ℕ) (data : List α) : List α :=
  let start := nfft / 2 - data.length / 2
  List.replicate start 0 ++ data ++ List.replicate (nfft - start - data.length) 0

/-- Embedding of `generate_ofdm_symbol`, parametric in the external
`np.fft.ifft` (length-preserving, per its documentation): zero-pad to
`N_fft`, transform, take the central `N_useful` samples, and prepend the
last `cp_length` samples (`time_symbol[-cp_length:]`, which for
`cp_length = 0` is the whole symbol, as in Python). -/
def generate_ofdm_symbol {α : Type} [Zero α] (ifft : List α → List α)
    (data : List α) (p : OfdmParams) (symIdx : ℕ) : List α :=
  let cpLen := (p.cp_per_symbol.getD symIdx 0).toNat
  let nfft := p.N_fft.toNat
  let full := ifft (npPadCenter nfft data)
  let startUseful := (p.N_fft - p.N_useful).toNat / 2
  let timeSymbol := (full.drop startUseful).take p.N_useful.toNat
  let cp := if cpLen = 0 then timeSymbol else timeSymbol.drop (timeSymbol.length - cpLen)
  cp ++ timeSymbol

/-- Column `j` of the grid's `values` matrix (`slot_data[:, sym]`). -/
def columnOf {α : Type} [Zero α] (values : List (List α)) (j : ℕ) : List α :=
  values.map (fun row => row.getD j 0)

/-- Embedding of `generate_slot_waveform`: concatenate the 14 OFDM
symbols of slot `slotIdx`. -/
def generate_slot_waveform {α : Type} [Zero α] (ifft : List α → List α)
    (values : List (List α)) (slotIdx : ℕ) (p : OfdmParams) : List α :=
  ((List.range 14).map
    (fun s => generate_ofdm_symbol ifft (columnOf values (slotIdx * 14 + s)) p s)).flatten

/-- The continued-fraction loop of CPython's
`Fraction.limit_denominator`, with structural fuel (the second state
component strictly decreases; `limitDenominator` passes the starting
denominator, which suffices). -/
def limitDenLoop (maxDen : ℕ) : ℕ → ℤ → ℤ → ℤ → ℤ → ℤ → ℤ → ℤ × ℤ × ℤ × ℤ × ℤ × ℤ
  | 0, p0, q0, p1, q1, n, d => (p0, q0, p1, q1, n, d)
  | fuel + 1, p0, q0, p1, q1, n, d =>
    if d = 0 then (p0, q0, p1, q1, n, d)
    else
      let a := n / d
      let q2 := q0 + a * q1
      if (maxDen : ℤ) < q2 then (p0, q0, p1, q1, n, d)
      else limitDenLoop maxDen fuel p1 q1 (p0 + a * p1) q2 d (n - a * d)

/-- Port of CPython's `Fraction.limit_denominator`: the closest fraction
with denominator at most `maxDen` (early return when the value already
qualifies, as in the source). -/
def limitDenominator (q : ℚ) (maxDen : ℕ) : ℚ :=
  if q.den ≤ maxDen then q
  else
    match limitDenLoop maxDen q.den 0 1 1 0 q.num (q.den : ℤ) with
    | (p0, q0, p1, q1, _, d) =>
      let k := ((maxDen : ℤ) - q0) / q1
      if 2 * d * (q0 + k * q1) ≤ (q.den : ℤ) then (p1 : ℚ) / (q1 : ℚ)
      else ((p0 + k * p1 : ℤ) : ℚ) / ((q0 + k * q1 : ℤ) : ℚ)

/-- Embedding of `resample_waveform` (utils/resample.py), parametric in
the external polyphase resampler: identity at equal rates, else resample
by the `limit_denominator(1000)` rational approximation of the ratio. -/
def resample_waveform {α : Type} (resample : List α → ℕ → ℕ → List α)
    (iq : List α) (fsIn fsOut : ℚ) : List α :=
  if fsIn = fsOut then iq
  else
    let fr := limitDenominator (fsOut / fsIn) 1000
    resample iq fr.num.toNat fr.den

/-- Embedding of `generate_frame_waveform`: OFDM parameters at the
standard rate, one slot waveform per slot of the 10 ms frame, then
resampling when the requested rate differs by more than 1 Hz. -/
def generate_frame_waveform {α : Type} [Zero α] (ifft : List α → List α)
    (resample : List α → ℕ → ℕ → List α) (values : List (List α))
    (cc : CarrierCfg) : Except OfdmError (List α) :=
  match getOfdmParams cc with
  | .error e => .error e
  | .ok p =>
    let totalSlots := 10 * 2 ^ cc.mu
    let wf := ((List.range totalSlots).map
      (fun s => generate_slot_waveform ifft values s p)).flatten
    if 1 < |p.fs - cc.sample_rate| then
      .ok (resample_waveform resample wf p.fs cc.sample_rate)
    else .ok wf

/-- Embedding of the record returned by `get_waveform_parameters`. -/
structure WaveformParams where
  fft_size : ℤ
  useful_size : ℤ
  cp_short : ℤ
  cp_long : ℤ
  cp_per_symbol : List ℤ
  samples_per_symbol : List ℤ
  total_slots : ℕ
  total_symbols : ℕ
  total_samples : ℤ
  subcarrier_spacing : ℚ
  sample_rate : ℚ
  slot_duration : ℚ
  num_rb : ℕ
  numerology : ℕ
deriving DecidableEq, Repr

/-- Embedding of `get_waveform_parameters`: per-symbol sample counts, the
standard-rate total, and the `int(round(total * sample_rate / fs))`
adjustment when resampling will occur. -/
def get_waveform_parameters (cc : CarrierCfg) : Except OfdmError WaveformParams :=
  match getOfdmParams cc with
  | .error e => .error e
  | .ok p =>
    let totalSlots : ℕ := 10 * 2 ^ cc.mu
    let totalSymbols : ℕ := totalSlots * 14
    let samples := p.cp_per_symbol.map (fun c => p.N_useful + c)
    let ts0 : ℤ := samples.sum * (totalSlots : ℤ)
    if 1 < |p.fs - cc.sample_rate| then
      .ok ⟨p.N_fft, p.N_useful, p.cp_short, p.cp_long, p.cp_per_symbol, samples,
        totalSlots, totalSymbols, pyRound ((ts0 : ℚ) * cc.sample_rate / p.fs),
        p.scs_hz, cc.sample_rate, p.slot_duration_s, cc.n_resource_blocks, p.mu⟩
    else
      .ok ⟨p.N_fft, p.N_useful, p.cp_short, p.cp_long, p.cp_per_symbol, samples,
        totalSlots, totalSymbols, ts0, p.scs_hz, p.fs, p.slot_duration_s,
        cc.n_resource_blocks, p.mu⟩

/-- Output length of scipy's `resample_poly`: `ceil(n * up / down)`. -/
def resamplePolyLen (n up down : ℕ) : ℕ := (n * up + down - 1) / down

/-- Modelled from the spec: the external FFT-based polyphase resampler
(`scipy.signal.resample_poly`), an external collaborator of which only
the output length matters here — `ceil(n * up / down)` samples, all
represented as zeros since values are irrelevant to the length claim. -/
def resamplePolyModel (x : List ℤ) (up down : ℕ) : List ℤ :=
  List.replicate (resamplePolyLen x.length up down) 0

theorem bitLenAux_lt (fuel : ℕ) : ∀ n : ℕ, n ≤ fuel → n < 2 ^ bitLenAux fuel n := by
  induction fuel with
  | zero =>
    intro n h
    have hn : n = 0 := by omega
    subst hn
    simp [bitLenAux]
  | succ f ih =>
    intro n h
    rw [bitLenAux]
    by_cases hn : n = 0
    · rw [if_pos hn]
      omega
    · rw [if_neg hn]
      have h2 := ih (n / 2) (by omega)
      have hpow : 2 ^ (bitLenAux f (n / 2) + 1) = 2 * 2 ^ bitLenAux f (n / 2) := by ring
      omega

theorem stdNFft_eq_pow (nsub : ℕ) : stdNFft nsub = 2 ^ bitLength (nsub - 1) := by
  rw [stdNFft, Nat.one_shiftLeft]

theorem stdNFft_ge (nsub : ℕ) : nsub ≤ stdNFft nsub := by
  rw [stdNFft_eq_pow]
  have h := bitLenAux_lt (nsub - 1) (nsub - 1) (le_refl _)
  rw [bitLength]
  omega

theorem bitLength_ge_four (n : ℕ) (h : 12 ≤ n) : 4 ≤ bitLength (n - 1) := by
  by_contra hlt
  push_neg at hlt
  have h1 := bitLenAux_lt (n - 1) (n - 1) (le_refl _)
  rw [← bitLength] at h1
  have h2 : 2 ^ bitLength (n - 1) ≤ 2 ^ 3 := Nat.pow_le_pow_right (by norm_num) (by omega)
  omega

theorem sum_map_add_left (a : ℤ) (l : List ℤ) :
    (l.map (fun c => a + c)).sum = l.length * a + l.sum := by
  induction l with
  | nil => simp
  | cons x t ih =>
    simp only [List.map_cons, List.sum_cons, List.length_cons, ih]
    push_cast
    ring

theorem sum_getD_range (l : List ℤ) :
    ((List.range l.length).map (fun i => l.getD i 0)).sum = l.sum := by
  induction l with
  | nil => simp
  | cons x t ih =>
    rw [List.length_cons, List.range_succ_eq_map]
    simp only [List.map_cons, List.map_map, List.sum_cons, List.getD_cons_zero]
    have hmap : (List.range t.length).map ((fun i => (x :: t).getD i 0) ∘ Nat.succ) =
        (List.range t.length).map (fun i => t.getD i 0) := by
      apply List.map_congr_left
      intro i _
      simp [Function.comp, List.getD_cons_succ]
    rw [hmap, ih]

theorem getD_le_sum (l : List ℤ) (hpos : ∀ j, j < l.length → 0 ≤ l.getD j 0) :
    ∀ i, i < l.length → l.getD i 0 ≤ l.sum := by
  induction l with
  | nil => intro i hi; simp at hi
  | cons x t ih =>
    intro i hi
    have hx : 0 ≤ x := by
      have := hpos 0 (by simp)
      simpa using this
    have htail : ∀ j, j < t.length → 0 ≤ t.getD j 0 := by
      intro j hj
      have := hpos (j + 1) (by simp; omega)
      simpa using this
    have htsum : 0 ≤ t.sum := by
      clear hi ih hpos
      induction t with
      | nil => simp
      | cons y s ihs =>
        simp only [List.sum_cons]
        have hy : 0 ≤ y := by simpa using htail 0 (by simp)
        have hs : 0 ≤ s.sum := by
          apply ihs
          intro j hj
          have := htail (j + 1) (by simp; omega)
          simpa using this
        omega
    cases i with
    | zero =>
      simp only [List.getD_cons_zero, List.sum_cons]
      omega
    | succ n =>
      simp only [List.getD_cons_succ, List.sum_cons]
      have := ih htail n (by simpa using hi)
      omega

/-- Shared form of the integer-rate success of `calculate_ofdm_params`,
exposing the fields the waveform-length proofs need. -/
theorem calculate_integer_rate (N mu : ℕ) (fs : ℚ) (hmu : mu ≤ 4)
    (hfs : fs = (N : ℚ) * (15000 * 2 ^ mu)) :
    ∃ p, calculate_ofdm_params fs mu CpType.normal none = .ok p ∧
      p.fs = fs ∧ p.N_useful = (N : ℤ) ∧ p.N_fft = pick_fft (N : ℤ) ∧
      p.cp_per_symbol.length = 14 ∧
      14 * (N : ℤ) + p.cp_per_symbol.sum = slotTarget fs mu ∧
      slotTarget fs mu = 15 * (N : ℤ) ∧
      (0 ≤ deficitOf fs mu (N : ℤ) →
        ∀ i, (cp0Of fs mu).getD i 0 ≤ p.cp_per_symbol.getD i 0) := by
  have hratio : fs / (15000 * 2 ^ mu) = ((N : ℤ) : ℚ) := by
    rw [hfs]
    have h2 : (0:ℚ) < 15000 * 2 ^ mu := by positivity
    push_cast
    field_simp
  have hpy : pyRound (fs / (15000 * 2 ^ mu)) = (N : ℤ) := by
    rw [hratio, pyRound_intCast]
  have htol : ¬ (1 / 10 ^ 9 < |((pyRound (fs / (15000 * 2 ^ mu)) : ℤ) : ℚ) -
      fs / (15000 * 2 ^ mu)|) := by
    rw [hpy, hratio]
    simp
  have htgt : slotTarget fs mu = 15 * (N : ℤ) := by
    rw [slotTarget, hfs]
    have hq : (N : ℚ) * (15000 * 2 ^ mu) * (1 / 1000 / 2 ^ mu) =
        (((15 * (N : ℤ) : ℤ)) : ℚ) := by
      have h2 : (2:ℚ) ^ mu ≠ 0 := by positivity
      push_cast
      field_simp
      ring
    rw [hq, pyRound_intCast]
  obtain ⟨p, hok, hfs', _, _, hN', hNf', _, _, _, hlen', hsum', hmono⟩ :=
    calcNormal_ok fs mu (N : ℤ) (pick_fft (N : ℤ)) (15000 * 2 ^ mu)
      (by positivity) (by rw [hfs]; positivity) htgt
  have hcalc : calculate_ofdm_params fs mu CpType.normal none = .ok p := by
    unfold calculate_ofdm_params
    rw [if_neg (by omega : ¬ 4 < mu)]
    dsimp only
    rw [if_neg htol, hpy]
    exact hok
  exact ⟨p, hcalc, hfs', hN', hNf', hlen', by rw [← hN'] at hsum' ⊢; exact hsum', htgt, hmono⟩

theorem pick_fft_pow_self (k : ℕ) : pick_fft ((2:ℤ) ^ k) = 2 ^ k := by
  obtain ⟨_, hle, hmin⟩ := pick_fft_least ((2:ℤ) ^ k)
  exact le_antisymm (hmin k (le_refl _)) hle

theorem cpShortOf_closed (N mu : ℕ) :
    cpShortOf ((N : ℚ) * (15000 * 2 ^ mu)) mu = pyRound ((9 * (N : ℚ)) / 128) := by
  rw [cpShortOf]
  congr 1
  rw [ofdmK, ofdmTc]
  have h2 : ((2:ℚ)) ^ mu ≠ 0 := by positivity
  field_simp
  ring

theorem cpLongOf_closed (N mu : ℕ) :
    cpLongOf ((N : ℚ) * (15000 * 2 ^ mu)) mu = pyRound ((5 * (N : ℚ)) / 64) := by
  rw [cpLongOf]
  congr 1
  rw [ofdmK, ofdmTc]
  have h2 : ((2:ℚ)) ^ mu ≠ 0 := by positivity
  field_simp
  ring

theorem baseCpList_sum (L S : ℤ) (mu : ℕ) :
    (baseCpList L S mu).sum = if 1 ≤ mu then L + 13 * S else 2 * L + 12 * S := by
  by_cases h : 1 ≤ mu
  · rw [if_pos h]
    have hlist : baseCpList L S mu = [L, S, S, S, S, S, S, S, S, S, S, S, S, S] := by
      rw [baseCpList, longPositions, if_pos h]
      rfl
    rw [hlist]
    simp only [List.sum_cons, List.sum_nil]
    ring
  · rw [if_neg h]
    have hlist : baseCpList L S mu = [L, S, S, S, S, S, S, L, S, S, S, S, S, S] := by
      rw [baseCpList, longPositions, if_neg h]
      rfl
    rw [hlist]
    simp only [List.sum_cons, List.sum_nil]
    ring

theorem cp_pow_bounds (k : ℕ) (hk : 4 ≤ k) :
    1 ≤ pyRound ((9 * ((2 ^ k : ℕ) : ℚ)) / 128) ∧
    1 ≤ pyRound ((5 * ((2 ^ k : ℕ) : ℚ)) / 64) ∧
    pyRound ((5 * ((2 ^ k : ℕ) : ℚ)) / 64) +
      13 * pyRound ((9 * ((2 ^ k : ℕ) : ℚ)) / 128) ≤ ((2 ^ k : ℕ) : ℤ) ∧
    2 * pyRound ((5 * ((2 ^ k : ℕ) : ℚ)) / 64) +
      12 * pyRound ((9 * ((2 ^ k : ℕ) : ℚ)) / 128) ≤ ((2 ^ k : ℕ) : ℤ) := by
  by_cases hk6 : k ≤ 6
  · interval_cases k
    · refine ⟨?_, ?_, ?_, ?_⟩ <;> decide
    · refine ⟨?_, ?_, ?_, ?_⟩ <;> decide
    · refine ⟨?_, ?_, ?_, ?_⟩ <;> decide
  · obtain ⟨j, hj⟩ : ∃ j, k = j + 7 := ⟨k - 7, by omega⟩
    subst hj
    have hS : (9 * ((2 ^ (j + 7) : ℕ) : ℚ)) / 128 = ((9 * 2 ^ j : ℤ) : ℚ) := by
      push_cast
      rw [pow_add]
      ring
    have hL : (5 * ((2 ^ (j + 7) : ℕ) : ℚ)) / 64 = ((10 * 2 ^ j : ℤ) : ℚ) := by
      push_cast
      rw [pow_add]
      ring
    rw [hS, hL, pyRound_intCast, pyRound_intCast]
    have h2j : (0:ℤ) < 2 ^ j := by positivity
    have hcast : ((2 ^ (j + 7) : ℕ) : ℤ) = 128 * 2 ^ j := by
      push_cast
      rw [pow_add]
      ring
    rw [hcast]
    refine ⟨by omega, by omega, by omega, by omega⟩

theorem sum_map_add_range (n : ℕ) (a : ℤ) (f : ℕ → ℤ) :
    ((List.range n).map (fun s => a + f s)).sum = n * a + ((List.range n).map f).sum := by
  induction n with
  | zero => simp
  | succ m ih =>
    rw [List.range_succ]
    simp only [List.map_append, List.sum_append, List.map_cons, List.map_nil,
      List.sum_cons, List.sum_nil, ih]
    push_cast
    ring

theorem generate_ofdm_symbol_length {α : Type} [Zero α] (ifft : List α → List α)
    (hifft : ∀ l, (ifft l).length = l.length) (data : List α) (p : OfdmParams) (s : ℕ)
    (hNf : p.N_fft = p.N_useful) (hN0 : 0 ≤ p.N_useful)
    (hdata : data.length ≤ p.N_fft.toNat)
    (hcp1 : 1 ≤ p.cp_per_symbol.getD s 0)
    (hcpN : p.cp_per_symbol.getD s 0 ≤ p.N_useful) :
    (generate_ofdm_symbol ifft data p s).length =
      (p.N_useful + p.cp_per_symbol.getD s 0).toNat := by
  unfold generate_ofdm_symbol
  dsimp only
  rw [if_neg (by omega : ¬ (p.cp_per_symbol.getD s 0).toNat = 0)]
  have hpadlen : (npPadCenter p.N_fft.toNat data).length = p.N_fft.toNat := by
    unfold npPadCenter
    dsimp only
    rw [List.length_append, List.length_append, List.length_replicate,
      List.length_replicate]
    omega
  have hfull : (ifft (npPadCenter p.N_fft.toNat data)).length = p.N_fft.toNat := by
    rw [hifft, hpadlen]
  have hstart : (p.N_fft - p.N_useful).toNat / 2 = 0 := by
    rw [hNf]
    simp
  rw [hstart, List.drop_zero]
  have htake : ((ifft (npPadCenter p.N_fft.toNat data)).take p.N_useful.toNat).length =
      p.N_useful.toNat := by
    rw [List.length_take, hfull, hNf]
    omega
  rw [List.length_append, List.length_drop, htake]
  omega

theorem generate_slot_waveform_length {α : Type} [Zero α] (ifft : List α → List α)
    (hifft : ∀ l, (ifft l).length = l.length) (values : List (List α))
    (slotIdx : ℕ) (p : OfdmParams)
    (hNf : p.N_fft = p.N_useful) (hN0 : 0 ≤ p.N_useful)
    (hvals : (values.length : ℤ) ≤ p.N_fft)
    (hlen : p.cp_per_symbol.length = 14)
    (hcp1 : ∀ i, i < 14 → 1 ≤ p.cp_per_symbol.getD i 0)
    (hcpN : ∀ i, i < 14 → p.cp_per_symbol.getD i 0 ≤ p.N_useful) :
    ((generate_slot_waveform ifft values slotIdx p).length : ℤ) =
      14 * p.N_useful + p.cp_per_symbol.sum := by
  unfold generate_slot_waveform
  rw [List.length_flatten, List.map_map]
  have hmapeq : (List.range 14).map
      (List.length ∘ fun s => generate_ofdm_symbol ifft (columnOf values (slotIdx * 14 + s)) p s) =
      (List.range 14).map (fun s => (p.N_useful + p.cp_per_symbol.getD s 0).toNat) := by
    apply List.map_congr_left
    intro s hs
    have hs14 := List.mem_range.1 hs
    simp only [Function.comp]
    apply generate_ofdm_symbol_length ifft hifft _ p s hNf hN0 ?_ (hcp1 s hs14) (hcpN s hs14)
    rw [columnOf, List.length_map]
    omega
  rw [hmapeq, Nat.cast_list_sum, List.map_map]
  have hmapeq2 : (List.range 14).map
      ((fun n : ℕ => (n : ℤ)) ∘ fun s => (p.N_useful + p.cp_per_symbol.getD s 0).toNat) =
      (List.range 14).map (fun s => p.N_useful + p.cp_per_symbol.getD s 0) := by
    apply List.map_congr_left
    intro s hs
    simp only [Function.comp]
    rw [Int.toNat_of_nonneg]
    have := hcp1 s (List.mem_range.1 hs)
    omega
  rw [hmapeq2, sum_map_add_range]
  have hsum14 : ((List.range 14).map (fun s => p.cp_per_symbol.getD s 0)).sum =
      p.cp_per_symbol.sum := by
    rw [← hlen]
    exact sum_getD_range p.cp_per_symbol
  rw [hsum14]
  push_cast
  ring

/-- Core length accounting for `generate_frame_waveform` at the standard
rate: the OFDM parameters succeed, and the concatenated (pre-resampling)
frame has exactly `total_slots * slot_target` samples. -/
theorem frame_wf_length {α : Type} [Zero α] (ifft : List α → List α)
    (hifft : ∀ l, (ifft l).length = l.length) (cc : CarrierCfg) (values : List (List α))
    (hrb : 1 ≤ cc.n_resource_blocks) (hmu : cc.mu ≤ 4)
    (hrows : values.length = cc.n_resource_blocks * 12) :
    ∃ p, getOfdmParams cc = .ok p ∧ p.fs = standardFs cc ∧
      p.N_useful = (stdNFft (cc.n_resource_blocks * 12) : ℤ) ∧
      p.cp_per_symbol.length = 14 ∧
      14 * p.N_useful + p.cp_per_symbol.sum = slotTarget (standardFs cc) cc.mu ∧
      slotTarget (standardFs cc) cc.mu = 15 * (stdNFft (cc.n_resource_blocks * 12) : ℤ) ∧
      ((((List.range (10 * 2 ^ cc.mu)).map
        (fun s => generate_slot_waveform ifft values s p)).flatten).length : ℤ) =
        (10 * 2 ^ cc.mu : ℤ) * slotTarget (standardFs cc) cc.mu := by
  set N := stdNFft (cc.n_resource_blocks * 12) with hN
  have hfsstd : standardFs cc = (N : ℚ) * (15000 * 2 ^ cc.mu) := by
    rw [standardFs, ← hN]
    ring
  obtain ⟨k, hk4, hNk⟩ : ∃ k, 4 ≤ k ∧ N = 2 ^ k := by
    refine ⟨bitLength (cc.n_resource_blocks * 12 - 1), ?_, ?_⟩
    · apply bitLength_ge_four
      omega
    · rw [hN, stdNFft_eq_pow]
  obtain ⟨p, hok, hpfs, hNu, hNfft, hlen, hsumN, htgt, hmono⟩ :=
    calculate_integer_rate N cc.mu (standardFs cc) hmu hfsstd
  have hNfftN : p.N_fft = (N : ℤ) := by
    rw [hNfft, hNk]
    push_cast
    exact_mod_cast pick_fft_pow_self k
  have hSc : cpShortOf (standardFs cc) cc.mu = pyRound ((9 * (N : ℚ)) / 128) := by
    rw [hfsstd]
    exact cpShortOf_closed N cc.mu
  have hLc : cpLongOf (standardFs cc) cc.mu = pyRound ((5 * (N : ℚ)) / 64) := by
    rw [hfsstd]
    exact cpLongOf_closed N cc.mu
  have hb := cp_pow_bounds k hk4
  rw [← hNk] at hb
  obtain ⟨hS1, hL1, hsum1, hsum0⟩ := hb
  have hcp0sum : (cp0Of (standardFs cc) cc.mu).sum ≤ (N : ℤ) := by
    rw [cp0Of, baseCpList_sum, hSc, hLc]
    split_ifs
    · exact hsum1
    · exact hsum0
  have hdef : 0 ≤ deficitOf (standardFs cc) cc.mu (N : ℤ) := by
    have hd : deficitOf (standardFs cc) cc.mu (N : ℤ) =
        slotTarget (standardFs cc) cc.mu -
          (14 * (N : ℤ) + (cp0Of (standardFs cc) cc.mu).sum) := rfl
    rw [hd, htgt]
    omega
  have hmono' := hmono hdef
  have hcp1 : ∀ i, i < 14 → 1 ≤ p.cp_per_symbol.getD i 0 := by
    intro i hi
    refine le_trans ?_ (hmono' i)
    rw [cp0Of, baseCpList_getD _ _ _ i hi]
    split_ifs
    · rw [hLc]; exact hL1
    · rw [hSc]; exact hS1
  have hsumcp : p.cp_per_symbol.sum = (N : ℤ) := by
    have := hsumN
    rw [htgt] at this
    omega
  have hcpN : ∀ i, i < 14 → p.cp_per_symbol.getD i 0 ≤ p.N_useful := by
    intro i hi
    rw [hNu, ← hsumcp]
    apply getD_le_sum
    · intro j hj
      rw [hlen] at hj
      exact le_trans zero_le_one (hcp1 j hj)
    · rw [hlen]
      exact hi
  have hNf : p.N_fft = p.N_useful := by rw [hNfftN, hNu]
  have hN0 : (0:ℤ) ≤ p.N_useful := by
    rw [hNu]
    positivity
  have hvals : (values.length : ℤ) ≤ p.N_fft := by
    rw [hrows, hNfftN]
    exact_mod_cast stdNFft_ge (cc.n_resource_blocks * 12)
  have hslot : ∀ s, ((generate_slot_waveform ifft values s p).length : ℤ) =
      slotTarget (standardFs cc) cc.mu := by
    intro s
    rw [generate_slot_waveform_length ifft hifft values s p hNf hN0 hvals hlen hcp1 hcpN]
    rw [hNu]
    exact hsumN
  refine ⟨p, hok, hpfs, hNu, hlen, by rw [hNu]; exact hsumN, htgt, ?_⟩
  rw [List.length_flatten, List.map_map, Nat.cast_list_sum, List.map_map]
  have hconst : (List.range (10 * 2 ^ cc.mu)).map
      ((fun n : ℕ => (n : ℤ)) ∘ List.length ∘ fun s => generate_slot_waveform ifft values s p) =
      (List.range (10 * 2 ^ cc.mu)).map (fun _ => slotTarget (standardFs cc) cc.mu) := by
    apply List.map_congr_left
    intro s _
    simp only [Function.comp]
    exact hslot s
  rw [hconst, List.map_const', List.sum_replicate, List.length_range, nsmul_eq_mul]
  push_cast
  ring

/-- C9 amended: at the standard rate (requested sample rate within 1 Hz of
the 3GPP-derived rate, so no resampling occurs), the frame waveform length
equals `get_waveform_parameters`'s `total_samples` exactly; in the
resampled case the two counts can differ (see the counterexample). -/
theorem frame_waveform_total_samples_standard {α : Type} [Zero α]
    (ifft : List α → List α) (hifft : ∀ l, (ifft l).length = l.length)
    (resample : List α → ℕ → ℕ → List α) (cc : CarrierCfg) (values : List (List α))
    (hrb : 1 ≤ cc.n_resource_blocks) (hmu : cc.mu ≤ 4)
    (hrows : values.length = cc.n_resource_blocks * 12)
    (hsr : ¬ (1 < |standardFs cc - cc.sample_rate|)) :
    ∃ wf wp, generate_frame_waveform ifft resample values cc = .ok wf ∧
      get_waveform_parameters cc = .ok wp ∧
      (wf.length : ℤ) = wp.total_samples := by
  obtain ⟨p, hok, hpfs, hNu, hlen, hsum, htgt, hframe⟩ :=
    frame_wf_length ifft hifft cc values hrb hmu hrows
  have hcond : ¬ (1 < |p.fs - cc.sample_rate|) := by
    rw [hpfs]
    exact hsr
  have hwf : generate_frame_waveform ifft resample values cc =
      .ok (((List.range (10 * 2 ^ cc.mu)).map
        (fun s => generate_slot_waveform ifft values s p)).flatten) := by
    unfold generate_frame_waveform
    rw [hok]
    dsimp only
    rw [if_neg hcond]
  have hwp : get_waveform_parameters cc =
      .ok ⟨p.N_fft, p.N_useful, p.cp_short, p.cp_long, p.cp_per_symbol,
        p.cp_per_symbol.map (fun c => p.N_useful + c), 10 * 2 ^ cc.mu,
        (10 * 2 ^ cc.mu) * 14,
        (p.cp_per_symbol.map (fun c => p.N_useful + c)).sum * ((10 * 2 ^ cc.mu : ℕ) : ℤ),
        p.scs_hz, p.fs, p.slot_duration_s, cc.n_resource_blocks, p.mu⟩ := by
    unfold get_waveform_parameters
    rw [hok]
    dsimp only
    rw [if_neg hcond]
  refine ⟨_, _, hwf, hwp, ?_⟩
  rw [hframe]
  dsimp only
  have hsamp : (p.cp_per_symbol.map (fun c => p.N_useful + c)).sum =
      slotTarget (standardFs cc) cc.mu := by
    rw [sum_map_add_left, hlen, ← hsum]
    push_cast
    ring
  rw [hsamp]
  push_cast
  ring

/-- Closed witness for `frame_waveform_total_samples_standard`. -/
theorem frame_waveform_total_samples_standard_witness :
    ((∀ l : List ℤ, (id l).length = l.length) ∧ 1 ≤ (1:ℕ) ∧ (0:ℕ) ≤ 4 ∧
      (List.replicate 12 (List.replicate 140 (0:ℤ))).length = 1 * 12 ∧
      ¬ (1 < |standardFs ⟨0, 1, 240000⟩ - (CarrierCfg.mk 0 1 240000).sample_rate|)) ∧
    (∃ wf wp, generate_frame_waveform id (fun l _ _ => l)
        (List.replicate 12 (List.replicate 140 (0:ℤ))) ⟨0, 1, 240000⟩ = .ok wf ∧
      get_waveform_parameters ⟨0, 1, 240000⟩ = .ok wp ∧
      (wf.length : ℤ) = wp.total_samples) :=
  ⟨⟨fun _ => rfl, le_refl 1, by norm_num, by simp, by decide⟩,
    frame_waveform_total_samples_standard id (fun _ => rfl) (fun l _ _ => l)
      ⟨0, 1, 240000⟩ (List.replicate 12 (List.replicate 140 (0:ℤ)))
      (le_refl 1) (by norm_num) (by simp) (by decide)⟩

/-- C9 counterexample: at mu=0, 25 RBs (standard rate 7.68 MHz) and a
requested sample rate of 7667712 Hz, the resampled frame has
ceil(76800 * 624/625) = 76678 samples, while `get_waveform_parameters`
reports `total_samples = round(76800 * 7667712/7680000) = 76677`, so the
documented equality fails in the resampling path. -/
theorem frame_waveform_resampled_total_mismatch :
    ∃ wf wp, generate_frame_waveform id resamplePolyModel
        (List.replicate 300 (List.replicate 140 (0:ℤ))) ⟨0, 25, 7667712⟩ = .ok wf ∧
      get_waveform_parameters ⟨0, 25, 7667712⟩ = .ok wp ∧
      (wf.length : ℤ) = 76678 ∧ wp.total_samples = 76677 ∧
      (wf.length : ℤ) ≠ wp.total_samples := by
  obtain ⟨p, hok, hpfs, _hNu, hlen, hsum, htgt, hframe⟩ :=
    frame_wf_length id (fun _ => rfl) ⟨0, 25, 7667712⟩
      (List.replicate 300 (List.replicate 140 (0:ℤ)))
      (by norm_num) (by norm_num) (by rw [List.length_replicate]; rfl)
  have hslotT : slotTarget (standardFs ⟨0, 25, 7667712⟩)
      (CarrierCfg.mu ⟨0, 25, 7667712⟩) = 7680 := htgt.trans (by decide)
  have hpre : ((((List.range (10 * 2 ^ (CarrierCfg.mu ⟨0, 25, 7667712⟩))).map
      (fun s => generate_slot_waveform id
        (List.replicate 300 (List.replicate 140 (0:ℤ))) s p)).flatten).length : ℤ) =
      76800 := by
    rw [hframe, hslotT]
    decide
  have hpre' : (((List.range (10 * 2 ^ (CarrierCfg.mu ⟨0, 25, 7667712⟩))).map
      (fun s => generate_slot_waveform id
        (List.replicate 300 (List.replicate 140 (0:ℤ))) s p)).flatten).length =
      76800 := by exact_mod_cast hpre
  have hcond : 1 < |p.fs - (CarrierCfg.sample_rate ⟨0, 25, 7667712⟩)| := by
    rw [hpfs]
    decide
  have hwf : generate_frame_waveform id resamplePolyModel
      (List.replicate 300 (List.replicate 140 (0:ℤ))) ⟨0, 25, 7667712⟩ =
      .ok (resample_waveform resamplePolyModel
        (((List.range (10 * 2 ^ (CarrierCfg.mu ⟨0, 25, 7667712⟩))).map
          (fun s => generate_slot_waveform id
            (List.replicate 300 (List.replicate 140 (0:ℤ))) s p)).flatten)
        p.fs (CarrierCfg.sample_rate ⟨0, 25, 7667712⟩)) := by
    unfold generate_frame_waveform
    rw [hok]
    dsimp only
    rw [if_pos hcond]
  have hne : ¬ (standardFs ⟨0, 25, 7667712⟩ =
      CarrierCfg.sample_rate ⟨0, 25, 7667712⟩) := by decide
  have hrw : resample_waveform resamplePolyModel
      (((List.range (10 * 2 ^ (CarrierCfg.mu ⟨0, 25, 7667712⟩))).map
        (fun s => generate_slot_waveform id
          (List.replicate 300 (List.replicate 140 (0:ℤ))) s p)).flatten)
      p.fs (CarrierCfg.sample_rate ⟨0, 25, 7667712⟩) =
      List.replicate 76678 0 := by
    unfold resample_waveform
    rw [hpfs]
    rw [if_neg hne]
    dsimp only
    have hfrac : limitDenominator ((CarrierCfg.sample_rate ⟨0, 25, 7667712⟩) /
        standardFs ⟨0, 25, 7667712⟩) 1000 = (624 : ℚ) / 625 := by decide
    rw [hfrac]
    have hnum : ((624 : ℚ) / 625).num.toNat = 624 := by decide
    have hden : ((624 : ℚ) / 625).den = 625 := by decide
    rw [hnum, hden]
    unfold resamplePolyModel
    rw [hpre']
    norm_num [resamplePolyLen]
  have hwf' : generate_frame_waveform id resamplePolyModel
      (List.replicate 300 (List.replicate 140 (0:ℤ))) ⟨0, 25, 7667712⟩ =
      .ok (List.replicate 76678 (0:ℤ)) := by rw [hwf, hrw]
  have hwp : get_waveform_parameters ⟨0, 25, 7667712⟩ =
      .ok ⟨p.N_fft, p.N_useful, p.cp_short, p.cp_long, p.cp_per_symbol,
        p.cp_per_symbol.map (fun c => p.N_useful + c),
        10 * 2 ^ (CarrierCfg.mu ⟨0, 25, 7667712⟩),
        (10 * 2 ^ (CarrierCfg.mu ⟨0, 25, 7667712⟩)) * 14,
        pyRound ((((p.cp_per_symbol.map (fun c => p.N_useful + c)).sum *
          ((10 * 2 ^ (CarrierCfg.mu ⟨0, 25, 7667712⟩) : ℕ) : ℤ) : ℤ) : ℚ) *
          (CarrierCfg.sample_rate ⟨0, 25, 7667712⟩) / p.fs),
        p.scs_hz, (CarrierCfg.sample_rate ⟨0, 25, 7667712⟩), p.slot_duration_s,
        (CarrierCfg.n_resource_blocks ⟨0, 25, 7667712⟩), p.mu⟩ := by
    unfold get_waveform_parameters
    rw [hok]
    dsimp only
    rw [if_pos hcond]
  have hsamp : (p.cp_per_symbol.map (fun c => p.N_useful + c)).sum = 7680 := by
    rw [sum_map_add_left, hlen]
    have h1 := hsum.trans hslotT
    push_cast
    omega
  have htot : pyRound ((((p.cp_per_symbol.map (fun c => p.N_useful + c)).sum *
      ((10 * 2 ^ (CarrierCfg.mu ⟨0, 25, 7667712⟩) : ℕ) : ℤ) : ℤ) : ℚ) *
      (CarrierCfg.sample_rate ⟨0, 25, 7667712⟩) / p.fs) = 76677 := by
    rw [hsamp, hpfs]
    decide
  refine ⟨List.replicate 76678 (0:ℤ), _, hwf', hwp, ?_, ?_, ?_⟩
  · rw [List.length_replicate]
    norm_num
  · exact htot
  · rw [List.length_replicate]
    dsimp only
    rw [htot]
    decide

end PyPhyNR
